import Mathlib

/-!
Verification development for the hotel-price-scraper repository.

The repository's core algorithms (currency/number normalization, candidate
extraction, retry orchestration, batch search, price comparison, persistence)
are shallowly embedded below as executable Lean functions, translated from
`src/server/services/webbeds-scraper.ts` (two concatenated versions of the
scraper live in that file; definitions note which version they come from),
`src/src/server/database.ts` and `src/server/_core/routes/hotels.ts`.

Numbers parsed from text are modelled as exact rationals (ℚ); JavaScript
strings are modelled as `String`/`List Char`.  External collaborators
(Puppeteer page fetches, cheerio selector matching, the SQLite driver) are
modelled by passing their outputs in as explicit arguments, as documented at
each definition.
-/

/-! ### Character and string utilities (models of the JS string primitives) -/

/-- Model of the JS whitespace class for the inputs at hand (space, tab, LF, CR). -/
def isWS (c : Char) : Bool := c = ' ' || c = '\t' || c = '\n' || c = '\r'

/-- ASCII decimal digit test (JS `\d`). -/
def isDigitC (c : Char) : Bool := 48 ≤ c.toNat && c.toNat ≤ 57

/-- ASCII uppercase letter test. -/
def isUpperC (c : Char) : Bool := 65 ≤ c.toNat && c.toNat ≤ 90

/-- ASCII lowercase letter test. -/
def isLowerC (c : Char) : Bool := 97 ≤ c.toNat && c.toNat ≤ 122

/-- JS `\w` word-character class: `[A-Za-z0-9_]`. -/
def isWordChar (c : Char) : Bool := isUpperC c || isLowerC c || isDigitC c || c = '_'

/-- ASCII lower-casing (model of `toLowerCase` / the `/i` regex flag for ASCII). -/
def lcChar (c : Char) : Char := if isUpperC c then Char.ofNat (c.toNat + 32) else c

/-- ASCII upper-casing (model of `String.prototype.toUpperCase` for ASCII). -/
def ucChar (c : Char) : Char := if isLowerC c then Char.ofNat (c.toNat - 32) else c

/-- Model of `String.prototype.trim`: drop whitespace from both ends. -/
def jsTrim (l : List Char) : List Char :=
  ((l.dropWhile isWS).reverse.dropWhile isWS).reverse

/-- Value of a list of ASCII digit characters read in base 10 (big-endian). -/
def digitsValN (l : List Char) : Nat := l.foldl (fun a c => 10 * a + (c.toNat - 48)) 0

/-- Model of JS `parseFloat` for the sign-free, exponent-free numeric strings
produced by the scraper's cleanup steps: leading whitespace is skipped, then a
maximal prefix of the form `digits`, `digits.digits`, `.digits` or `digits.` is
parsed exactly (trailing junk is ignored); `none` models `NaN`. -/
def jsParseFloat (s : String) : Option ℚ :=
  let cs := s.data.dropWhile isWS
  let ip := cs.takeWhile isDigitC
  let rest := cs.dropWhile isDigitC
  match rest with
  | '.' :: r2 =>
    let fp := r2.takeWhile isDigitC
    if ip.isEmpty && fp.isEmpty then none
    else some (mkRat (digitsValN ip * 10 ^ fp.length + digitsValN fp) (10 ^ fp.length))
  | _ => if ip.isEmpty then none else some ((digitsValN ip : ℚ))

/-- Remove the first occurrence of the character `c` (JS `replace("<c>", "")`
with a single-character pattern). -/
def removeFirstChar (c : Char) : List Char → List Char
  | [] => []
  | x :: xs => if x = c then xs else x :: removeFirstChar c xs

/-- Does `pat` occur at the head of `l` (case-sensitive)? -/
def startsWithL : List Char → List Char → Bool
  | [], _ => true
  | _ :: _, [] => false
  | p :: ps, c :: cs => c = p && startsWithL ps cs

/-- Remove the first occurrence of the substring `pat` (JS
`String.prototype.replace` with a string pattern and empty replacement);
the list is returned unchanged when `pat` does not occur. -/
def replaceFirst (pat : List Char) : List Char → List Char
  | [] => []
  | c :: cs => if startsWithL pat (c :: cs) then (c :: cs).drop pat.length
               else c :: replaceFirst pat cs

/-- Model of JS `String.prototype.lastIndexOf` for a single character
(-1 when absent). -/
def lastIndexOf (c : Char) : List Char → Int
  | [] => -1
  | x :: xs =>
    let r := lastIndexOf c xs
    if r ≥ 0 then r + 1 else if x = c then 0 else -1

/-! ### Currency/Number Normalizer
(`parsePriceString`, `webbeds-scraper.ts` lines 669-730, second scraper version) -/

/-- The fixed symbol→code table of `parsePriceString` (checked in this order). -/
def symbolTable : List (Char × String) :=
  [('$', "USD"), ('€', "EUR"), ('£', "GBP"), ('¥', "JPY"), ('₹', "INR")]

/-- The fixed 3-letter code set of the `\b(USD|EUR|GBP|JPY|INR|CAD|AUD)\b/i` regex. -/
def codes7 : List String := ["USD", "EUR", "GBP", "JPY", "INR", "CAD", "AUD"]

/-- Case-insensitive (ASCII) test that `pat` occurs at the head of `s`. -/
def ciStarts : List Char → List Char → Bool
  | [], _ => true
  | _ :: _, [] => false
  | p :: ps, c :: cs => lcChar c = lcChar p && ciStarts ps cs

/-- `\b` to the left of a match position: start of string or previous
character not a word character. -/
def boundaryBefore : Option Char → Bool
  | none => true
  | some c => !isWordChar c

/-- `\b` after a 3-character match starting at `s`: end of string or next
character not a word character. -/
def boundaryAfter3 (s : List Char) : Bool :=
  match s.drop 3 with
  | [] => true
  | c :: _ => !isWordChar c

/-- Attempt the alternation `(USD|EUR|GBP|JPY|INR|CAD|AUD)` (case-insensitive,
with word boundaries on both sides) at the current position; on success return
the matched text (the actual 3 characters of the subject, original case). -/
def tryCode (prev : Option Char) (s : List Char) : Option (List Char) :=
  if boundaryBefore prev && codes7.any (fun c => ciStarts c.data s) && boundaryAfter3 s then
    some (s.take 3)
  else none

/-- Leftmost match of `/\b(USD|EUR|GBP|JPY|INR|CAD|AUD)\b/i`: scan positions
left to right, carrying the previous character for the boundary test. -/
def findCode (prev : Option Char) : List Char → Option (List Char)
  | [] => none
  | c :: cs =>
    match tryCode prev (c :: cs) with
    | some t => some t
    | none => findCode (some c) cs

/-- Currency detection of `parsePriceString` (lines 682-699): first the symbol
loop over `symbolTable` (first symbol contained in the string wins, it is
stripped and the rest trimmed), then the code regex on the *original* cleaned
string; a code match overwrites the symbol's currency and recomputes the
number part from the cleaned string with the matched text removed. -/
def detectCurrency (cleaned : List Char) : Option String × List Char :=
  let fromSymbol : Option String × List Char :=
    match symbolTable.find? (fun sc => cleaned.contains sc.1) with
    | some (sym, code) => (some code, jsTrim (removeFirstChar sym cleaned))
    | none => (none, cleaned)
  match findCode none cleaned with
  | some t => (some (String.mk (t.map ucChar)), jsTrim (replaceFirst t cleaned))
  | none => fromSymbol

/-- The character class `[\d,.\s]` of the number-extraction regex. -/
def isNumClass (c : Char) : Bool := isDigitC c || c = ',' || c = '.' || isWS c

/-- `numberPart.match(/[\d,.\s]+/)`: the first maximal run of characters from
`[\d,.\s]`, or `none` when no such character occurs. -/
def firstClassRun (l : List Char) : Option (List Char) :=
  match l.dropWhile (fun c => !isNumClass c) with
  | [] => none
  | c :: cs => some ((c :: cs).takeWhile isNumClass)

/-- Decimal/thousands separator normalization of `parsePriceString`
(lines 712-721), applied to the whitespace-free numeric remainder:
if both `.` and `,` occur, compare their last positions; a later `.` removes
all commas, otherwise all dots are removed and commas become dots; with only
commas present, commas become dots. -/
def cleanSeparators (l : List Char) : List Char :=
  if l.contains '.' && l.contains ',' then
    if lastIndexOf '.' l > lastIndexOf ',' l then
      l.filter (fun c => c ≠ ',')
    else
      (l.filter (fun c => c ≠ '.')).map (fun c => if c = ',' then '.' else c)
  else if l.contains ',' then
    l.map (fun c => if c = ',' then '.' else c)
  else l

/-- Numeric part of `parsePriceString` (lines 701-727): extract the first
`[\d,.\s]+` run from the number part, trim it and strip all whitespace,
normalize separators, and parse; `none` models the `price: null` outcome. -/
def parseCharsPrice (numberPart : List Char) : Option ℚ :=
  match firstClassRun numberPart with
  | none => none
  | some run =>
    jsParseFloat (String.mk (cleanSeparators ((jsTrim run).filter (fun c => !isWS c))))

/-- Result shape of `parsePriceString`: `price: number | null`,
`currency: string | null`. -/
structure PriceParse where
  price : Option ℚ
  currency : Option String
deriving DecidableEq, Repr

/-- `parsePriceString` (lines 669-730) on a character list: trim, detect the
currency and number part, parse the numeric remainder; on numeric success a
missing currency defaults to `"USD"`. -/
def parsePriceChars (cs : List Char) : PriceParse :=
  let cleaned := jsTrim cs
  let dc := detectCurrency cleaned
  match parseCharsPrice dc.2 with
  | none => ⟨none, dc.1⟩
  | some p => ⟨some p, some (dc.1.getD "USD")⟩

/-- `parsePriceString` on a `String`. -/
def parsePriceString (s : String) : PriceParse := parsePriceChars s.data

/-- Trim of a `String` (JS `.trim()`), used where the callers trim element
text before passing it to the normalizer. -/
def strTrim (s : String) : String := String.mk (jsTrim s.data)

/-- The separator class: `.` or `,`. -/
def isSepC (c : Char) : Bool := c = '.' || c = ','

/-- Modelled from the spec: on a remainder containing both `.` and `,`, the
*rightmost* of the two punctuation marks (the last `.`-or-`,` character of the
string) is the decimal separator, and the other mark is a thousands separator
and is removed; the decimal separator is written as `.` in the result. -/
def specSepNormalize (l : List Char) : List Char :=
  match (l.filter isSepC).getLast? with
  | none => l
  | some d =>
    let other : Char := if d = '.' then ',' else '.'
    (l.filter (fun c => c ≠ other)).map (fun c => if c = d then '.' else c)

/-! ### Decimal rendering (model of `Number.prototype.toFixed(2)`) -/

/-- Base-10 digit characters of `n` (most significant first), via fuel
recursion; empty for `n = 0`. -/
def natCharsAux : Nat → Nat → List Char
  | 0, _ => []
  | fuel + 1, n =>
    if n = 0 then []
    else natCharsAux fuel (n / 10) ++ [Char.ofNat (48 + n % 10)]

/-- Decimal rendering of a natural number (`"0"` for zero). -/
def natChars (n : Nat) : List Char :=
  if n = 0 then ['0'] else natCharsAux (n + 1) n

/-- Two-digit decimal rendering of `f < 100`. -/
def twoDig (f : Nat) : List Char :=
  [Char.ofNat (48 + f / 10), Char.ofNat (48 + f % 10)]

/-- Model of `price.toFixed(2)` for the non-negative prices the scraper
produces: round half-up to an integer number of cents (ECMAScript `toFixed`
picks the closer scaled integer, the larger one on ties) and print it with
exactly two decimals.  For `q ≥ 0` the cent count below equals
`⌊q * 100 + 1/2⌋`, written on `q.num`/`q.den` so that it evaluates by
machine arithmetic. -/
def toFixed2 (q : ℚ) : String :=
  let n : Nat := (200 * q.num + q.den).toNat / (2 * q.den)
  String.mk (natChars (n / 100) ++ '.' :: twoDig (n % 100))

/-! ### First-version normalizer
(`extractPrice`, `webbeds-scraper.ts` lines 112-127, first scraper version) -/

/-- The match of `/([^\d]*)([\d,.]+)/` against `cs`, as the pair
(group 1, group 2), or `none` when the regex does not match.  With a digit
present, group 1 is the prefix before the first digit and group 2 the maximal
`[\d,.]` run from that digit; with no digit, greedy backtracking makes group 2
the last `,`-or-`.` character and group 1 everything before it; with neither,
there is no match. -/
def extractPriceMatch (cs : List Char) : Option (List Char × List Char) :=
  match cs.dropWhile (fun c => !isDigitC c) with
  | c :: rest => some (cs.takeWhile (fun c => !isDigitC c),
      (c :: rest).takeWhile (fun ch => isDigitC ch || ch = ',' || ch = '.'))
  | [] => (lastSepSplit cs).map (fun p => (p.1, [p.2]))
where
  /-- Split off the last `,`-or-`.` character: `(prefix before it, the char)`. -/
  lastSepSplit : List Char → Option (List Char × Char)
    | [] => none
    | x :: xs =>
      match lastSepSplit xs with
      | some (p, c) => some (x :: p, c)
      | none => if x = ',' || x = '.' then some ([], x) else none

/-- `extractPrice` (first version, lines 112-127): on no regex match, return
`price 0, currency "USD"`; otherwise currency is group 1 trimmed (or `"USD"`
when empty), and group 2 is cleaned by the per-separator replace callback
(all separators deleted when there are two or more; otherwise commas become
dots and dots are deleted) and parsed, `NaN` becoming price 0. -/
def extractPrice (s : String) : ℚ × String :=
  match extractPriceMatch s.data with
  | none => (0, "USD")
  | some (g1, g2) =>
    let currencyRaw := jsTrim g1
    let currency := if currencyRaw.isEmpty then "USD" else String.mk currencyRaw
    let seps := g2.countP (fun c => c = ',' || c = '.')
    let priceStr :=
      if 2 ≤ seps then g2.filter (fun c => !(c = ',' || c = '.'))
      else (g2.filter (fun c => c ≠ '.')).map (fun c => if c = ',' then '.' else c)
    match jsParseFloat (String.mk priceStr) with
    | none => (0, currency)
    | some p => (p, currency)

/-! ### Candidate Extractor
(`extractPriceInfo` lines 631-662, `extractPriceFromText` lines 737-753,
second scraper version).  The cheerio document is modelled by its observable
inputs to these functions: the trimmed text of the first element matched by
each price selector that matches anything (in selector order), and the list
of substrings of the page body text matched by the free-text price pattern
(in document order). -/

/-- The selector loop of `extractPriceInfo`: pass each candidate text to the
normalizer and accept the first result with non-null price and currency. -/
def selLoop : List String → Option (ℚ × String)
  | [] => none
  | t :: ts =>
    let r := parsePriceString (strTrim t)
    match r.price, r.currency with
    | some p, some c => some (p, c)
    | _, _ => selLoop ts

/-- Loop of `extractPriceFromText`: run each regex match through the
normalizer in order, returning the first whose price is non-null and `> 0`. -/
def eftLoop : List String → Option PriceParse
  | [] => none
  | m :: rest =>
    let r := parsePriceString m
    match r.price with
    | some p => if 0 < p then some r else eftLoop rest
    | none => eftLoop rest

/-- `extractPriceFromText` (lines 737-753) on the list of pattern matches. -/
def extractPriceFromText (ms : List String) : Option PriceParse := eftLoop ms

/-- `extractPriceInfo` (lines 631-662): selector candidates first, then the
free-text fallback, else `price: null, currency: null`. -/
def extractPriceInfo (selTexts : List String) (ms : List String) :
    Option ℚ × Option String :=
  match selLoop selTexts with
  | some (p, c) => (some p, some c)
  | none =>
    match extractPriceFromText ms with
    | some r => (r.price, r.currency)
    | none => (none, none)

/-! ### Retry Orchestrator
(`retryOperation` lines 132-157 first version, `withRetry` lines 782-811
second version).  The wrapped asynchronous operation is modelled as a
function from the invocation index (0-based) to that invocation's outcome;
delays and logging have no effect on the returned value and are omitted.
Both sources loop a fixed number of iterations, returning on the first
success and rethrowing the last failure after the loop, so they share one
loop model; the result is paired with the number of invocations made, and
the error value is the last recorded failure (`none` when the loop body
never ran, matching the nullable `lastError`). -/

def retryLoop (op : Nat → Except String α) : Nat → Nat → Option String →
    Except (Option String) α × Nat
  | _, 0, last => (.error last, 0)
  | i, rem + 1, _ =>
    match op i with
    | .ok a => (.ok a, 1)
    | .error e =>
      let r := retryLoop op (i + 1) rem (some e)
      (r.1, r.2 + 1)

/-- `retryOperation` (first version): `for attempt = 1 .. retryAttempts`,
i.e. exactly `n` iterations. -/
def retryOperation (n : Nat) (op : Nat → Except String α) :
    Except (Option String) α × Nat :=
  retryLoop op 0 n none

/-- `withRetry` (second version): `for attempt = 0 .. maxRetries` inclusive,
i.e. `maxRetries + 1` iterations — the code's own messages call this total
`maxRetries + 1` attempts. -/
def withRetry (maxRetries : Nat) (op : Nat → Except String α) :
    Except (Option String) α × Nat :=
  retryLoop op 0 (maxRetries + 1) none

/-! ### Batch search -/

/-- Result row produced by the second-version scraper. -/
structure HotelSearchResult where
  hotelId : String
  name : String
  price : ℚ
  currency : String
  checkIn : String
  checkOut : String
deriving DecidableEq, Repr

/-- Loop of `searchHotels` (second version, lines 449-489): each hotel's
search outcome (success value or thrown error message) is supplied as input;
successes are accumulated into `results`, failures into the `errors` list
that is only passed to the logger.  Returns `(results, errors)`. -/
def searchHotelsLoop :
    List (String × Except String HotelSearchResult) →
    List HotelSearchResult × List (String × String)
  | [] => ([], [])
  | (hid, out) :: rest =>
    let acc := searchHotelsLoop rest
    match out with
    | .ok r => (r :: acc.1, acc.2)
    | .error e => (acc.1, (hid, e) :: acc.2)

/-- `searchHotels`: run the loop; the pair is (returned value, errors handed
to the logging collaborator). -/
def searchHotels (hotels : List (String × Except String HotelSearchResult)) :
    List HotelSearchResult × List (String × String) :=
  searchHotelsLoop hotels

/-- The value `searchHotels` actually returns to its caller (`return results`):
the successes only. -/
def searchHotelsReturn
    (hotels : List (String × Except String HotelSearchResult)) :
    List HotelSearchResult :=
  (searchHotels hotels).1

/-- Days per month of the proleptic Gregorian calendar. -/
def daysInMonth (y m : Nat) : Nat :=
  if m = 2 then (if y % 4 = 0 && (y % 100 ≠ 0 || y % 400 = 0) then 29 else 28)
  else if m = 4 || m = 6 || m = 9 || m = 11 then 30
  else 31

/-- Digit value of a character. -/
def dv (c : Char) : Nat := c.toNat - 48

/-- `isValidDateFormat` (first version, lines 291-299): the
`/^\d{4}-\d{2}-\d{2}$/` shape test plus `new Date(s)` validity, modelled from
the ECMAScript ISO date parser (in-range month and day). -/
def isValidDateFormat (s : String) : Bool :=
  match s.data with
  | [y1, y2, y3, y4, '-', m1, m2, '-', d1, d2] =>
    isDigitC y1 && isDigitC y2 && isDigitC y3 && isDigitC y4 &&
    isDigitC m1 && isDigitC m2 && isDigitC d1 && isDigitC d2 &&
    (let y := 1000 * dv y1 + 100 * dv y2 + 10 * dv y3 + dv y4
     let m := 10 * dv m1 + dv m2
     let d := 10 * dv d1 + dv d2
     1 ≤ m && m ≤ 12 && 1 ≤ d && d ≤ daysInMonth y m)
  | _ => false

/-- Lexicographic `≤` on character lists (by code point). -/
def lexLe : List Char → List Char → Bool
  | [], _ => true
  | _ :: _, [] => false
  | a :: as, b :: bs => if a = b then lexLe as bs else decide (a.toNat < b.toNat)

/-- Model of `new Date(ci) >= new Date(co)` for format-valid ISO date
strings, for which chronological order is lexicographic order. -/
def dateGe (ci co : String) : Bool := lexLe co.data ci.data

/-- Loop of `searchMultipleHotels` (first version, lines 256-279): each
hotel's outcome is a thrown error (caught and logged, loop continues), a
`null` result (skipped) or a result (pushed). -/
def smhLoop : List (String × Except String HotelSearchResult) →
    List HotelSearchResult
  | [] => []
  | (_, out) :: rest =>
    match out with
    | .ok r => r :: smhLoop rest
    | .error _ => smhLoop rest

/-- `searchMultipleHotels` (first version, lines 232-286): guard clauses for
a non-empty hotel list, date format, and `new Date(checkIn) >= new
Date(checkOut)` (each modelled as a thrown error), then the per-hotel loop.
The per-hotel search outcomes are supplied as inputs; a `null` single-hotel
result is modelled as an `.error` input to the loop (both are skipped, so
the return value is unaffected). -/
def searchMultipleHotels
    (outs : List (String × Except String HotelSearchResult))
    (ci co : String) : Except String (List HotelSearchResult) :=
  if outs.isEmpty then .error "hotelNames must be a non-empty array"
  else if !(isValidDateFormat ci && isValidDateFormat co) then
    .error "Invalid date format. Use YYYY-MM-DD"
  else if dateGe ci co then
    .error "Check-in date must be before check-out date"
  else .ok (smhLoop outs)

/-! ### Single-hotel scrape pipeline and persistence
(`searchHotelPrices` lines 162-227 first version; `router.post('/:id/scrape')`
in `src/server/_core/routes/hotels.ts` lines 169-218; `saveHotelPrice` in
`src/src/server/database.ts` lines 198-214).  The rendered page is modelled
by the parsed first hotel card (or `none` when no card matched); the SQLite
store is modelled by the outcome of the insert. -/

/-- A hotel row as the routes see it. -/
structure HotelRec where
  id : String
  name : String
deriving DecidableEq, Repr

/-- The data extracted from the first `[data-testid="hotel-card"]` element:
the `data-hotel-id` attribute and the trimmed texts of the name, price and
rating nodes. -/
structure HotelCard where
  hotelId : Option String
  name : String
  priceText : String
  ratingText : String
deriving DecidableEq, Repr

/-- The result type of the first-version scraper. -/
structure HotelSearchResultV1 where
  hotelId : String
  hotelName : String
  price : ℚ
  currency : String
  checkIn : String
  checkOut : String
  rating : Option ℚ
deriving DecidableEq, Repr

/-- Decimal string of a natural number. -/
def natStr (n : Nat) : String := String.mk (natChars n)

/-- `parseFloat(ratingText) || null`: `NaN` and `0` are both falsy. -/
def ratingOf (t : String) : Option ℚ :=
  match jsParseFloat t with
  | some r => if r = 0 then none else some r
  | none => none

/-- `searchHotelPrices` (first version, lines 162-227): no date validation of
any kind; with no hotel card, return `null`; otherwise build the result from
the card via `extractPrice`, defaulting the id from the clock (`now`) and
the name from the query.  Navigation, waiting and retries around the fetch
are modelled as already complete in the supplied `card`. -/
def searchHotelPrices (hotelName ci co : String) (card : Option HotelCard)
    (now : Nat) : Option HotelSearchResultV1 :=
  match card with
  | none => none
  | some c =>
    let pc := extractPrice c.priceText
    some { hotelId := c.hotelId.getD ("hotel_" ++ natStr now)
           hotelName := if c.name = "" then hotelName else c.name
           price := pc.1
           currency := pc.2
           checkIn := ci
           checkOut := co
           rating := ratingOf c.ratingText }

/-- The observation row persisted by `saveHotelPrice`. -/
structure SavedPrice where
  hotelId : String
  price : ℚ
  currency : String
  checkIn : String
  checkOut : String
deriving DecidableEq, Repr

/-- `POST /api/hotels/:id/scrape` (lines 169-218): 400 when a date is
missing, 404 when the hotel does not exist, otherwise run
`searchHotelPrices` and, when it returns a result, persist it with the
route's hotel id.  Returns (HTTP status, list of persisted observations).
No check-in/check-out comparison appears anywhere on this path. -/
def scrapeRoute (ci co : String) (hotel : Option HotelRec)
    (card : Option HotelCard) (now : Nat) : Nat × List SavedPrice :=
  if ci = "" || co = "" then (400, [])
  else
    match hotel with
    | none => (404, [])
    | some h =>
      match searchHotelPrices h.name ci co card now with
      | some r => (200, [{ hotelId := h.id, price := r.price,
                           currency := r.currency, checkIn := r.checkIn,
                           checkOut := r.checkOut }])
      | none => (200, [])

/-- `saveHotelPrice` (`database.ts` lines 198-214), with the database already
initialized: the store insert's outcome is supplied as input; an insert
error is caught and turned into a logged warning.  Returns (the value
returned to the caller, the logged warning if any). -/
def saveHotelPrice (_r : SavedPrice) (insert : Except String Unit) :
    Except String Unit × Option String :=
  match insert with
  | .ok _ => (.ok (), none)
  | .error e => (.ok (), some ("Failed to save hotel price: " ++ e))

/-! ### Comparator (`comparePrices`, `src/src/server/database.ts` lines
244-298).  The two tables are modelled as lists of rows; the SQL LEFT JOIN,
the optional `WHERE` on the joined columns, the `ORDER BY h.name,
hp.recorded_at DESC`, the JS `Map`-based first-occurrence deduplication and
the final comparator sort are each embedded below.  `Array.prototype.sort`
and the SQL `ORDER BY` are modelled as a stable insertion sort over the
respective comparators (ECMAScript sort is stable; SQLite leaves equal keys
unordered — the claims proved below do not depend on the tie order). -/

/-- A row of `hotels`. -/
structure Hotel where
  id : String
  hotelId : String
  name : String
deriving DecidableEq, Repr

/-- A row of `hotel_prices`. -/
structure PriceRow where
  id : String
  hotelId : String
  price : ℚ
  currency : String
  checkIn : String
  checkOut : String
  recordedAt : Nat
deriving DecidableEq, Repr

/-- A row of the LEFT JOIN: the hotel, with its matched price row or the
NULL extension. -/
structure JoinRow where
  hotel : Hotel
  price : Option PriceRow
deriving DecidableEq, Repr

/-- An element of the comparison array built by `comparePrices`. -/
structure CompareEntry where
  id : String
  hotelId : String
  name : String
  latestPrice : Option ℚ
  currency : Option String
  lastUpdated : Option Nat
deriving DecidableEq, Repr

/-- Stable insertion by a boolean "may precede" test (`le x y` ⟺ the JS
comparator applied to `(x, y)` is `≤ 0`). -/
def jsInsert (le : α → α → Bool) (x : α) : List α → List α
  | [] => [x]
  | y :: ys => if le x y then x :: y :: ys else y :: jsInsert le x ys

/-- Stable insertion sort; the model of a comparator-driven sort. -/
def jsSortBy (le : α → α → Bool) : List α → List α
  | [] => []
  | x :: xs => jsInsert le x (jsSortBy le xs)

/-- `ORDER BY h.name, hp.recorded_at DESC` as a "may precede" test:
names ascending; within a name, recording times descending with the SQL
NULL (smallest value, hence last under DESC) below every time. -/
def rowLe (a b : JoinRow) : Bool :=
  if a.hotel.name = b.hotel.name then
    match a.price, b.price with
    | some x, some y => y.recordedAt ≤ x.recordedAt
    | some _, none => true
    | none, some _ => false
    | none, none => true
  else lexLe a.hotel.name.data b.hotel.name.data

/-- The JS comparator of `comparePrices` as a "may precede" test:
`a.latestPrice === null` gives `1` (never precedes), a null `b` gives `-1`,
otherwise `a.latestPrice - b.latestPrice ≤ 0`. -/
def entryLe (a b : CompareEntry) : Bool :=
  match a.latestPrice, b.latestPrice with
  | none, _ => false
  | some _, none => true
  | some p, some q => p ≤ q

/-- The JS `Map` keyed by `row.id`: keep the first row per id, in order. -/
def collapse (seen : List String) : List JoinRow → List JoinRow
  | [] => []
  | r :: rs =>
    if r.hotel.id ∈ seen then collapse seen rs
    else r :: collapse (r.hotel.id :: seen) rs

/-- The comparison object built from a join row (`comparison.set(row.id, …)`). -/
def toEntry (r : JoinRow) : CompareEntry :=
  { id := r.hotel.id
    hotelId := r.hotel.hotelId
    name := r.hotel.name
    latestPrice := r.price.map (fun p => p.price)
    currency := r.price.map (fun p => p.currency)
    lastUpdated := r.price.map (fun p => p.recordedAt) }

/-- Rows the LEFT JOIN (plus the optional date `WHERE`) produces for one
hotel: with no filter, the matching price rows or the single NULL-extended
row; with a filter, only the date-matching price rows — the `WHERE` on
`hp.check_in_date`/`hp.check_out_date` eliminates the NULL extension, so a
hotel with no matching observation contributes no row at all. -/
def joinRowsOf (prices : List PriceRow) (dateFilter : Option (String × String))
    (h : Hotel) : List JoinRow :=
  let m := prices.filter (fun p => p.hotelId = h.hotelId)
  match dateFilter with
  | none =>
    if m.isEmpty then [⟨h, none⟩] else m.map (fun p => ⟨h, some p⟩)
  | some f =>
    (m.filter (fun p => p.checkIn = f.1 && p.checkOut = f.2)).map
      (fun p => ⟨h, some p⟩)

/-- `comparePrices` (lines 244-298): join, order, deduplicate by hotel id
keeping the first (latest-recorded) row, and sort by the latest price with
nulls pushed to the end. -/
def comparePrices (hotels : List Hotel) (prices : List PriceRow)
    (dateFilter : Option (String × String)) : List CompareEntry :=
  let rows := hotels.flatMap (joinRowsOf prices dateFilter)
  let ordered := jsSortBy rowLe rows
  let entries := (collapse [] ordered).map toEntry
  jsSortBy entryLe entries

/-! ## Supporting lemmas -/

deriving instance DecidableEq for Except

/-- Rewriting `detectCurrency` when the code regex matches. -/
theorem detectCurrency_code_eq (cleaned t : List Char)
    (h : findCode none cleaned = some t) :
    detectCurrency cleaned
      = (some (String.mk (t.map ucChar)), jsTrim (replaceFirst t cleaned)) := by
  unfold detectCurrency
  rw [h]

/-- The price slot of `parsePriceString` is null exactly when the numeric
remainder fails to parse. -/
theorem parsePriceString_price_none (s : String) :
    (parsePriceString s).price = none
      ↔ parseCharsPrice (detectCurrency (jsTrim s.data)).2 = none := by
  unfold parsePriceString parsePriceChars
  cases h : parseCharsPrice (detectCurrency (jsTrim s.data)).2 <;> simp [h]

/-- `lastIndexOf` is -1 exactly on absence. -/
theorem lastIndexOf_of_not_mem (c : Char) :
    ∀ l : List Char, c ∉ l → lastIndexOf c l = -1 := by
  intro l
  induction l with
  | nil => intro _; rfl
  | cons x xs ih =>
    intro h
    have hx : ¬x = c := fun e => h (by simp [e])
    have hxs : c ∉ xs := fun m => h (by simp [m])
    rw [lastIndexOf, ih hxs]
    norm_num [hx]

/-- `lastIndexOf` is non-negative on membership. -/
theorem lastIndexOf_nonneg (c : Char) :
    ∀ l : List Char, c ∈ l → 0 ≤ lastIndexOf c l := by
  intro l
  induction l with
  | nil => intro h; cases h
  | cons x xs ih =>
    intro h
    rw [lastIndexOf]
    by_cases hr : lastIndexOf c xs ≥ 0
    · rw [if_pos hr]; omega
    · rw [if_neg hr]
      have hx : x = c := by
        rcases List.mem_cons.mp h with h' | h'
        · exact h'.symm
        · exact absurd (ih h') hr
      rw [if_pos hx]

/-- `lastIndexOf` steps over a head when the character occurs in the tail. -/
theorem lastIndexOf_cons_of_mem (c x : Char) (xs : List Char) (h : c ∈ xs) :
    lastIndexOf c (x :: xs) = lastIndexOf c xs + 1 := by
  rw [lastIndexOf, if_pos (lastIndexOf_nonneg c xs h)]

/-- Every non-empty list has a last element that is a member. -/
theorem getLast?_some_of_ne_nil :
    ∀ l : List Char, l ≠ [] → ∃ y, l.getLast? = some y ∧ y ∈ l := by
  intro l
  induction l with
  | nil => intro h; exact absurd rfl h
  | cons x xs ih =>
    intro _
    cases xs with
    | nil => exact ⟨x, rfl, by simp⟩
    | cons y ys =>
      obtain ⟨z, hz, hm⟩ := ih (by simp)
      exact ⟨z, by rw [List.getLast?_cons_cons]; exact hz, by simp [hm]⟩

/-- The rightmost separator of a string containing both marks is `.` exactly
when the last dot position exceeds the last comma position. -/
theorem getLast_sep_dot_iff :
    ∀ l : List Char, '.' ∈ l → ',' ∈ l →
      ((l.filter isSepC).getLast? = some '.'
        ↔ lastIndexOf '.' l > lastIndexOf ',' l) := by
  intro l
  induction l with
  | nil => intro h; cases h
  | cons x xs ih =>
    intro hd hc
    by_cases hdx : '.' ∈ xs <;> by_cases hcx : ',' ∈ xs
    · -- both separators occur in the tail: reduce to the tail
      have hfx : ('.' : Char) ∈ xs.filter isSepC := by
        simp [List.mem_filter, hdx, isSepC]
      have hne : xs.filter isSepC ≠ [] := List.ne_nil_of_mem hfx
      have hstep : ((x :: xs).filter isSepC).getLast? = (xs.filter isSepC).getLast? := by
        by_cases hsx : isSepC x
        · rw [List.filter_cons_of_pos hsx]
          obtain ⟨z, hz, _⟩ := getLast?_some_of_ne_nil _ hne
          cases hfe : xs.filter isSepC with
          | nil => exact absurd hfe hne
          | cons a as => rw [List.getLast?_cons_cons]
        · rw [List.filter_cons_of_neg hsx]
      rw [hstep, lastIndexOf_cons_of_mem _ _ _ hdx, lastIndexOf_cons_of_mem _ _ _ hcx]
      rw [ih hdx hcx]
      omega
    · -- the comma is the head; the dot occurs later, so dot is rightmost
      have hx : x = ',' := by
        rcases List.mem_cons.mp hc with h' | h'
        · exact h'.symm
        · exact absurd h' hcx
      subst hx
      have hdot : lastIndexOf '.' (',' :: xs) = lastIndexOf '.' xs + 1 :=
        lastIndexOf_cons_of_mem _ _ _ hdx
      have hcomma : lastIndexOf ',' (',' :: xs) = 0 := by
        rw [lastIndexOf, lastIndexOf_of_not_mem _ _ hcx]
        norm_num
      have hge := lastIndexOf_nonneg '.' xs hdx
      constructor
      · intro _; omega
      · intro _
        rw [List.filter_cons_of_pos (by simp [isSepC])]
        have hfx : ('.' : Char) ∈ xs.filter isSepC := by
          simp [List.mem_filter, hdx, isSepC]
        have hne : xs.filter isSepC ≠ [] := List.ne_nil_of_mem hfx
        obtain ⟨z, hz, hm⟩ := getLast?_some_of_ne_nil _ hne
        have hzd : z = '.' := by
          have hzm := List.mem_filter.mp hm
          have : z = '.' ∨ z = ',' := by
            have := hzm.2
            simp [isSepC] at this
            exact this
          rcases this with h' | h'
          · exact h'
          · exact absurd (h' ▸ hzm.1) hcx
        cases hfe : xs.filter isSepC with
        | nil => exact absurd hfe hne
        | cons a as =>
          rw [List.getLast?_cons_cons, ← hfe, hz, hzd]
    · -- the dot is the head; the comma occurs later, so comma is rightmost
      have hx : x = '.' := by
        rcases List.mem_cons.mp hd with h' | h'
        · exact h'.symm
        · exact absurd h' hdx
      subst hx
      have hcomma : lastIndexOf ',' ('.' :: xs) = lastIndexOf ',' xs + 1 :=
        lastIndexOf_cons_of_mem _ _ _ hcx
      have hdot : lastIndexOf '.' ('.' :: xs) = 0 := by
        rw [lastIndexOf, lastIndexOf_of_not_mem _ _ hdx]
        norm_num
      have hge := lastIndexOf_nonneg ',' xs hcx
      constructor
      · intro hlast
        exfalso
        rw [List.filter_cons_of_pos (by simp [isSepC])] at hlast
        have hfx : (',' : Char) ∈ xs.filter isSepC := by
          simp [List.mem_filter, hcx, isSepC]
        have hne : xs.filter isSepC ≠ [] := List.ne_nil_of_mem hfx
        obtain ⟨z, hz, hm⟩ := getLast?_some_of_ne_nil _ hne
        have hzc : z = ',' := by
          have hzm := List.mem_filter.mp hm
          have : z = '.' ∨ z = ',' := by
            have := hzm.2
            simp [isSepC] at this
            exact this
          rcases this with h' | h'
          · exact absurd (h' ▸ hzm.1) hdx
          · exact h'
        cases hfe : xs.filter isSepC with
        | nil => exact absurd hfe hne
        | cons a as =>
          rw [hfe, List.getLast?_cons_cons, ← hfe, hz, hzc] at hlast
          cases hlast
      · intro hcmp; omega
    · -- neither mark in the tail: x would have to be both '.' and ','
      exfalso
      have h1 : x = '.' := by
        rcases List.mem_cons.mp hd with h' | h'
        · exact h'.symm
        · exact absurd h' hdx
      have h2 : x = ',' := by
        rcases List.mem_cons.mp hc with h' | h'
        · exact h'.symm
        · exact absurd h' hcx
      rw [h1] at h2
      cases h2

/-! ### Sort and comparator lemmas -/

/-- Insertion produces a permutation of consing. -/
theorem jsInsert_perm {α : Type} (le : α → α → Bool) (x : α) :
    ∀ l : List α, List.Perm (jsInsert le x l) (x :: l) := by
  intro l
  induction l with
  | nil => exact List.Perm.refl _
  | cons y ys ih =>
    rw [jsInsert]
    by_cases h : le x y
    · rw [if_pos h]
    · rw [if_neg h]
      exact (List.Perm.cons y ih).trans (List.Perm.swap x y ys)

/-- The insertion sort is a permutation of its input. -/
theorem jsSortBy_perm {α : Type} (le : α → α → Bool) :
    ∀ l : List α, List.Perm (jsSortBy le l) l := by
  intro l
  induction l with
  | nil => exact List.Perm.refl _
  | cons x xs ih =>
    exact (jsInsert_perm le x (jsSortBy le xs)).trans (List.Perm.cons x ih)

/-- Inserting into a list pairwise-ordered by `R` preserves the ordering,
provided the boolean test decides `R` in both directions and `R` is
transitive. -/
theorem pairwise_jsInsert {α : Type} {R : α → α → Prop} (le : α → α → Bool)
    (htrans : ∀ a b c, R a b → R b c → R a c)
    (hT : ∀ a b, le a b = true → R a b)
    (hF : ∀ a b, le a b = false → R b a) (x : α) :
    ∀ l : List α, l.Pairwise R → (jsInsert le x l).Pairwise R := by
  intro l
  induction l with
  | nil => intro _; simp [jsInsert]
  | cons y ys ih =>
    intro hl
    rw [List.pairwise_cons] at hl
    rw [jsInsert]
    by_cases h : le x y
    · rw [if_pos h]
      have hxy : R x y := hT x y h
      rw [List.pairwise_cons]
      refine ⟨?_, List.pairwise_cons.mpr hl⟩
      intro z hz
      rcases List.mem_cons.mp hz with rfl | hz'
      · exact hxy
      · exact htrans x y z hxy (hl.1 z hz')
    · rw [if_neg h]
      have hyx : R y x := hF x y (by rwa [Bool.not_eq_true] at h)
      rw [List.pairwise_cons]
      refine ⟨?_, ih hl.2⟩
      intro z hz
      have hz' := (jsInsert_perm le x ys).mem_iff.mp hz
      rcases List.mem_cons.mp hz' with rfl | hz''
      · exact hyx
      · exact hl.1 z hz''

/-- The insertion sort produces a pairwise-`R`-ordered list. -/
theorem pairwise_jsSortBy {α : Type} {R : α → α → Prop} (le : α → α → Bool)
    (htrans : ∀ a b c, R a b → R b c → R a c)
    (hT : ∀ a b, le a b = true → R a b)
    (hF : ∀ a b, le a b = false → R b a) :
    ∀ l : List α, (jsSortBy le l).Pairwise R := by
  intro l
  induction l with
  | nil => simp [jsSortBy]
  | cons x xs ih => exact pairwise_jsInsert le htrans hT hF x _ ih

/-- The claim's output ordering, as a pairwise relation: an entry with a null
latest price is only ever followed by null entries (no-observation hotels sort
last), and the non-null latest prices are non-decreasing. -/
def entryOrdered (a b : CompareEntry) : Prop :=
  (a.latestPrice = none → b.latestPrice = none)
  ∧ ∀ p q, a.latestPrice = some p → b.latestPrice = some q → p ≤ q

/-- `entryOrdered` is transitive. -/
theorem entryOrdered_trans (a b c : CompareEntry) :
    entryOrdered a b → entryOrdered b c → entryOrdered a c := by
  intro h1 h2
  constructor
  · intro ha; exact h2.1 (h1.1 ha)
  · intro p r hp hr
    cases hb : b.latestPrice with
    | none => rw [h2.1 hb] at hr; cases hr
    | some q => exact le_trans (h1.2 p q hp hb) (h2.2 q r hb hr)

/-- A true comparator test implies the pairwise relation. -/
theorem entryLe_true_ordered (a b : CompareEntry) :
    entryLe a b = true → entryOrdered a b := by
  intro h
  rw [entryLe] at h
  cases ha : a.latestPrice with
  | none => rw [ha] at h; cases h
  | some p =>
    cases hb : b.latestPrice with
    | none =>
      refine ⟨fun h' => (by rw [ha] at h'; cases h'), fun p' q hp hq => ?_⟩
      rw [hb] at hq; cases hq
    | some q =>
      rw [ha, hb] at h
      refine ⟨fun h' => (by rw [ha] at h'; cases h'), fun p' q' hp hq => ?_⟩
      rw [ha] at hp; cases hp
      rw [hb] at hq; cases hq
      exact of_decide_eq_true h

/-- A false comparator test implies the reversed pairwise relation. -/
theorem entryLe_false_ordered (a b : CompareEntry) :
    entryLe a b = false → entryOrdered b a := by
  intro h
  rw [entryLe] at h
  cases ha : a.latestPrice with
  | none =>
    refine ⟨fun h' => ha, fun p q hp hq => ?_⟩
    rw [ha] at hq; cases hq
  | some p =>
    cases hb : b.latestPrice with
    | none => rw [ha, hb] at h; cases h
    | some q =>
      rw [ha, hb] at h
      refine ⟨fun h' => (by rw [hb] at h'; cases h'), fun p' q' hp hq => ?_⟩
      rw [hb] at hp; cases hp
      rw [ha] at hq; cases hq
      exact le_of_not_le (of_decide_eq_false h)


/-- Rows surviving the deduplication come from the input. -/
theorem collapse_subset :
    ∀ (rows : List JoinRow) (seen : List String) (r : JoinRow),
      r ∈ collapse seen rows → r ∈ rows := by
  intro rows
  induction rows with
  | nil => intro seen r h; cases h
  | cons x xs ih =>
    intro seen r h
    rw [collapse] at h
    by_cases hx : x.hotel.id ∈ seen
    · rw [if_pos hx] at h
      exact List.mem_cons_of_mem x (ih seen r h)
    · rw [if_neg hx] at h
      rcases List.mem_cons.mp h with rfl | h'
      · exact List.mem_cons_self _ _
      · exact List.mem_cons_of_mem x (ih _ r h')

/-- Ids retained by the deduplication: exactly the input ids not yet seen. -/
theorem collapse_mem_ids :
    ∀ (rows : List JoinRow) (seen : List String) (i : String),
      i ∈ (collapse seen rows).map (fun r => r.hotel.id)
        ↔ i ∈ rows.map (fun r => r.hotel.id) ∧ i ∉ seen := by
  intro rows
  induction rows with
  | nil => intro seen i; simp [collapse]
  | cons x xs ih =>
    intro seen i
    rw [collapse]
    by_cases hx : x.hotel.id ∈ seen
    · rw [if_pos hx, ih]
      simp only [List.map_cons, List.mem_cons]
      constructor
      · rintro ⟨h1, h2⟩; exact ⟨Or.inr h1, h2⟩
      · rintro ⟨h1 | h1, h2⟩
        · exact absurd (h1 ▸ hx) h2
        · exact ⟨h1, h2⟩
    · rw [if_neg hx]
      simp only [List.map_cons, List.mem_cons, ih]
      constructor
      · rintro (rfl | ⟨h1, h2⟩)
        · exact ⟨Or.inl rfl, hx⟩
        · exact ⟨Or.inr h1, fun hs => h2 (by simp [hs])⟩
      · rintro ⟨h1 | h1, h2⟩
        · exact Or.inl h1
        · by_cases hxi : i = x.hotel.id
          · exact Or.inl hxi
          · exact Or.inr ⟨h1, by simp [hxi, h2]⟩

/-- The retained ids are distinct. -/
theorem collapse_ids_nodup :
    ∀ (rows : List JoinRow) (seen : List String),
      ((collapse seen rows).map (fun r => r.hotel.id)).Nodup := by
  intro rows
  induction rows with
  | nil => intro seen; simp [collapse]
  | cons x xs ih =>
    intro seen
    rw [collapse]
    by_cases hx : x.hotel.id ∈ seen
    · rw [if_pos hx]; exact ih seen
    · rw [if_neg hx]
      rw [List.map_cons, List.nodup_cons]
      refine ⟨?_, ih _⟩
      intro hmem
      exact ((collapse_mem_ids xs _ _).mp hmem).2 (by simp)

/-- Every join row of a hotel carries that hotel. -/
theorem joinRowsOf_hotel (prices : List PriceRow)
    (f : Option (String × String)) (h : Hotel) (r : JoinRow) :
    r ∈ joinRowsOf prices f h → r.hotel = h := by
  intro hr
  cases f with
  | none =>
    rw [joinRowsOf] at hr
    by_cases hm : (prices.filter (fun p => p.hotelId = h.hotelId)).isEmpty
    · rw [if_pos hm] at hr
      rcases List.mem_cons.mp hr with rfl | h'
      · rfl
      · cases h'
    · rw [if_neg hm] at hr
      obtain ⟨p, _, rfl⟩ := List.mem_map.mp hr
      rfl
  | some ff =>
    rw [joinRowsOf] at hr
    obtain ⟨p, _, rfl⟩ := List.mem_map.mp hr
    rfl

/-- With no date filter every hotel yields at least one join row. -/
theorem joinRowsOf_none_ne_nil (prices : List PriceRow) (h : Hotel) :
    joinRowsOf prices none h ≠ [] := by
  rw [joinRowsOf]
  by_cases hm : (prices.filter (fun p => p.hotelId = h.hotelId)).isEmpty
  · rw [if_pos hm]; simp
  · rw [if_neg hm]
    intro hemp
    rw [List.map_eq_nil_iff] at hemp
    rw [hemp] at hm
    exact hm rfl

/-- Membership of an id among the join rows, no-filter case: exactly the
hotels' ids. -/
theorem joinRows_none_ids (hotels : List Hotel) (prices : List PriceRow)
    (i : String) :
    i ∈ (hotels.flatMap (joinRowsOf prices none)).map (fun r => r.hotel.id)
      ↔ i ∈ hotels.map (fun h => h.id) := by
  simp only [List.mem_map, List.mem_flatMap]
  constructor
  · rintro ⟨r, ⟨h, hh, hr⟩, rfl⟩
    exact ⟨h, hh, by rw [joinRowsOf_hotel prices none h r hr]⟩
  · rintro ⟨h, hh, rfl⟩
    cases hrows : joinRowsOf prices none h with
    | nil => exact absurd hrows (joinRowsOf_none_ne_nil prices h)
    | cons r rs =>
      refine ⟨r, ⟨h, hh, by rw [hrows]; exact List.mem_cons_self _ _⟩, ?_⟩
      rw [joinRowsOf_hotel prices none h r (by rw [hrows]; exact List.mem_cons_self _ _)]

/-- The boolean "this hotel has an observation matching the date filter". -/
def hasObsFor (prices : List PriceRow) (f : String × String) (h : Hotel) : Bool :=
  !((prices.filter (fun p => p.hotelId = h.hotelId)).filter
      (fun p => p.checkIn = f.1 && p.checkOut = f.2)).isEmpty

/-- Membership of an id among the join rows, filtered case: exactly the ids
of hotels with a matching observation. -/
theorem joinRows_filter_ids (hotels : List Hotel) (prices : List PriceRow)
    (ff : String × String) (i : String) :
    i ∈ (hotels.flatMap (joinRowsOf prices (some ff))).map (fun r => r.hotel.id)
      ↔ i ∈ (hotels.filter (hasObsFor prices ff)).map (fun h => h.id) := by
  simp only [List.mem_map, List.mem_flatMap, List.mem_filter]
  constructor
  · rintro ⟨r, ⟨h, hh, hr⟩, rfl⟩
    refine ⟨h, ⟨hh, ?_⟩, by rw [joinRowsOf_hotel prices (some ff) h r hr]⟩
    rw [joinRowsOf] at hr
    obtain ⟨p, hp, _⟩ := List.mem_map.mp hr
    rw [hasObsFor]
    cases hemp : ((prices.filter (fun p => p.hotelId = h.hotelId)).filter
        (fun p => p.checkIn = ff.1 && p.checkOut = ff.2)).isEmpty
    · rfl
    · rw [List.isEmpty_iff] at hemp
      rw [hemp] at hp
      cases hp
  · rintro ⟨h, ⟨hh, hobs⟩, rfl⟩
    rw [hasObsFor, Bool.not_eq_true'] at hobs
    cases hm : (prices.filter (fun p => p.hotelId = h.hotelId)).filter
        (fun p => p.checkIn = ff.1 && p.checkOut = ff.2) with
    | nil => rw [hm] at hobs; cases hobs
    | cons p ps =>
      refine ⟨⟨h, some p⟩, ⟨h, hh, ?_⟩, rfl⟩
      rw [joinRowsOf]
      exact List.mem_map.mpr ⟨p, by rw [hm]; exact List.mem_cons_self _ _, rfl⟩

/-- Two duplicate-free lists with the same members have equal length. -/
theorem length_eq_of_nodup_of_mem_iff {l₁ l₂ : List String}
    (h₁ : l₁.Nodup) (h₂ : l₂.Nodup) (h : ∀ i, i ∈ l₁ ↔ i ∈ l₂) :
    l₁.length = l₂.length := by
  rw [← List.toFinset_card_of_nodup h₁, ← List.toFinset_card_of_nodup h₂]
  congr 1
  ext i
  simp [h i]

/-- The length of `comparePrices` equals the number of ids surviving the
deduplication, and those ids are the distinct ids of the join rows. -/
theorem comparePrices_length_eq (hotels : List Hotel) (prices : List PriceRow)
    (f : Option (String × String)) (target : List String)
    (htgt : target.Nodup)
    (hids : ∀ i, i ∈ (hotels.flatMap (joinRowsOf prices f)).map
        (fun r => r.hotel.id) ↔ i ∈ target) :
    (comparePrices hotels prices f).length = target.length := by
  rw [comparePrices]
  rw [(jsSortBy_perm entryLe _).length_eq]
  rw [List.length_map]
  have hlen : (collapse [] (jsSortBy rowLe
      (hotels.flatMap (joinRowsOf prices f)))).length
      = ((collapse [] (jsSortBy rowLe
          (hotels.flatMap (joinRowsOf prices f)))).map
            (fun r => r.hotel.id)).length := by
    rw [List.length_map]
  rw [hlen]
  refine length_eq_of_nodup_of_mem_iff (collapse_ids_nodup _ _) htgt ?_
  intro i
  rw [collapse_mem_ids]
  have hperm := (jsSortBy_perm rowLe (hotels.flatMap (joinRowsOf prices f))).map
      (fun r => r.hotel.id)
  rw [hperm.mem_iff]
  rw [hids i]
  simp

/-- The entries of `comparePrices` come from join rows. -/
theorem comparePrices_mem (hotels : List Hotel) (prices : List PriceRow)
    (f : Option (String × String)) (e : CompareEntry)
    (he : e ∈ comparePrices hotels prices f) :
    ∃ h ∈ hotels, ∃ r ∈ joinRowsOf prices f h, e = toEntry r := by
  rw [comparePrices] at he
  have he2 := (jsSortBy_perm entryLe _).subset he
  obtain ⟨r, hr, rfl⟩ := List.mem_map.mp he2
  have hr2 := collapse_subset _ _ _ hr
  have hr3 := (jsSortBy_perm rowLe _).subset hr2
  obtain ⟨h, hh, hrj⟩ := List.mem_flatMap.mp hr3
  exact ⟨h, hh, r, hrj, rfl⟩

/-! ### Digit rendering and parsing round-trip -/

/-- A digit character's code point. -/
theorem digitChar_toNat (d : Nat) (hd : d < 10) :
    (Char.ofNat (48 + d)).toNat = 48 + d := by
  interval_cases d <;> decide

/-- A digit character is a digit. -/
theorem digitChar_isDigit (d : Nat) (hd : d < 10) :
    isDigitC (Char.ofNat (48 + d)) = true := by
  interval_cases d <;> decide

/-- Digits are not whitespace. -/
theorem digit_not_ws (c : Char) (h : isDigitC c = true) : isWS c = false := by
  rw [isWS]
  rw [isDigitC, Bool.and_eq_true, decide_eq_true_iff, decide_eq_true_iff] at h
  have h1 : ¬c = ' ' := fun e => by rw [e] at h; exact absurd h (by decide)
  have h2 : ¬c = '\t' := fun e => by rw [e] at h; exact absurd h (by decide)
  have h3 : ¬c = '\n' := fun e => by rw [e] at h; exact absurd h (by decide)
  have h4 : ¬c = '\r' := fun e => by rw [e] at h; exact absurd h (by decide)
  simp [h1, h2, h3, h4]

/-- Digits are not separators. -/
theorem digit_not_sep (c : Char) (h : isDigitC c = true) :
    c ≠ ',' ∧ c ≠ '.' := by
  rw [isDigitC, Bool.and_eq_true, decide_eq_true_iff, decide_eq_true_iff] at h
  exact ⟨fun e => by rw [e] at h; exact absurd h (by decide),
    fun e => by rw [e] at h; exact absurd h (by decide)⟩

/-- Digits are not upper-case letters. -/
theorem digit_not_upper (c : Char) (h : isDigitC c = true) :
    isUpperC c = false := by
  rw [isDigitC, Bool.and_eq_true, decide_eq_true_iff, decide_eq_true_iff] at h
  rw [isUpperC]
  have : ¬(65 ≤ c.toNat ∧ c.toNat ≤ 90) := fun hh => by omega
  simpa [Bool.and_eq_true] using this

/-- The characters of `natCharsAux` are digits. -/
theorem natCharsAux_digits :
    ∀ (fuel n : Nat) (c : Char), c ∈ natCharsAux fuel n → isDigitC c = true := by
  intro fuel
  induction fuel with
  | zero => intro n c h; cases h
  | succ fuel ih =>
    intro n c h
    rw [natCharsAux] at h
    by_cases hn : n = 0
    · rw [if_pos hn] at h; cases h
    · rw [if_neg hn] at h
      rcases List.mem_append.mp h with h' | h'
      · exact ih _ c h'
      · rcases List.mem_cons.mp h' with rfl | h''
        · exact digitChar_isDigit _ (Nat.mod_lt _ (by omega))
        · cases h''

/-- The characters of `natChars` are digits. -/
theorem natChars_digits (n : Nat) (c : Char) (h : c ∈ natChars n) :
    isDigitC c = true := by
  rw [natChars] at h
  by_cases hn : n = 0
  · rw [if_pos hn] at h
    rcases List.mem_cons.mp h with rfl | h'
    · decide
    · cases h'
  · rw [if_neg hn] at h
    exact natCharsAux_digits _ _ c h

/-- `natChars` is never empty. -/
theorem natChars_ne_nil (n : Nat) : natChars n ≠ [] := by
  rw [natChars]
  by_cases hn : n = 0
  · rw [if_pos hn]; simp
  · rw [if_neg hn]
    rw [natCharsAux, if_neg hn]
    simp

/-- `digitsValN` over a snoc. -/
theorem digitsValN_append (l : List Char) (c : Char) :
    digitsValN (l ++ [c]) = 10 * digitsValN l + (c.toNat - 48) := by
  rw [digitsValN, digitsValN, List.foldl_append]
  rfl

/-- `natCharsAux` renders the value it is given. -/
theorem natCharsAux_val :
    ∀ (fuel n : Nat), n ≤ fuel → digitsValN (natCharsAux fuel n) = n := by
  intro fuel
  induction fuel with
  | zero => intro n h; interval_cases n; rfl
  | succ fuel ih =>
    intro n h
    rw [natCharsAux]
    by_cases hn : n = 0
    · rw [if_pos hn, hn]; rfl
    · rw [if_neg hn, digitsValN_append]
      have hlt : n / 10 < n := Nat.div_lt_self (by omega) (by omega)
      rw [ih (n / 10) (by omega)]
      rw [digitChar_toNat _ (Nat.mod_lt _ (by omega))]
      omega

/-- `natChars` renders `n`. -/
theorem natChars_val (n : Nat) : digitsValN (natChars n) = n := by
  rw [natChars]
  by_cases hn : n = 0
  · rw [if_pos hn, hn]; rfl
  · rw [if_neg hn]; exact natCharsAux_val _ n (by omega)

/-- The two characters of `twoDig` are digits, and it renders `f < 100`. -/
theorem twoDig_spec (f : Nat) (hf : f < 100) :
    (∀ c ∈ twoDig f, isDigitC c = true) ∧ digitsValN (twoDig f) = f := by
  constructor
  · intro c hc
    rw [twoDig] at hc
    rcases List.mem_cons.mp hc with rfl | hc'
    · exact digitChar_isDigit _ (by omega)
    · rcases List.mem_cons.mp hc' with rfl | hc''
      · exact digitChar_isDigit _ (Nat.mod_lt _ (by omega))
      · cases hc''
  · have h1 := digitChar_toNat (f / 10) (by omega)
    have h2 := digitChar_toNat (f % 10) (Nat.mod_lt _ (by omega))
    simp [twoDig, digitsValN, h1, h2]
    omega

/-- `takeWhile` swallows a satisfying prefix and stops at a failing head. -/
theorem takeWhile_append_stop (p : Char → Bool) :
    ∀ (l : List Char) (x : Char) (r : List Char),
      (∀ c ∈ l, p c = true) → p x = false →
      (l ++ x :: r).takeWhile p = l ∧ (l ++ x :: r).dropWhile p = x :: r := by
  intro l
  induction l with
  | nil =>
    intro x r _ hx
    constructor
    · rw [List.nil_append, List.takeWhile_cons, hx]
      simp
    · rw [List.nil_append, List.dropWhile_cons, hx]
      simp
  | cons c cs ih =>
    intro x r hl hx
    have hc : p c = true := hl c (by simp)
    obtain ⟨h1, h2⟩ := ih x r (fun d hd => hl d (by simp [hd])) hx
    constructor
    · rw [List.cons_append, List.takeWhile_cons, hc]
      simp [h1]
    · rw [List.cons_append, List.dropWhile_cons, hc]
      simp [h2]

/-- `takeWhile` of an entirely satisfying list. -/
theorem takeWhile_all (p : Char → Bool) :
    ∀ l : List Char, (∀ c ∈ l, p c = true) → l.takeWhile p = l := by
  intro l
  induction l with
  | nil => intro _; rfl
  | cons c cs ih =>
    intro h
    rw [List.takeWhile_cons, h c (by simp)]
    simp [ih (fun d hd => h d (by simp [hd]))]

/-- `jsParseFloat` of a canonical `digits.dd` string. -/
theorem jsParseFloat_canonical (a f : Nat) (hf : f < 100) :
    jsParseFloat (String.mk (natChars a ++ '.' :: twoDig f))
      = some (mkRat (a * 100 + f) 100) := by
  rw [jsParseFloat]
  have hdata : (String.mk (natChars a ++ '.' :: twoDig f)).data
      = natChars a ++ '.' :: twoDig f := rfl
  rw [hdata]
  have hdw : (natChars a ++ '.' :: twoDig f).dropWhile isWS
      = natChars a ++ '.' :: twoDig f := by
    cases hh : natChars a with
    | nil => exact absurd hh (natChars_ne_nil a)
    | cons c cs =>
      rw [List.cons_append, List.dropWhile_cons]
      rw [digit_not_ws c (natChars_digits a c (by rw [hh]; simp))]
      simp
  rw [hdw]
  obtain ⟨htw, hdw2⟩ := takeWhile_append_stop isDigitC (natChars a) '.'
    (twoDig f) (natChars_digits a) (by decide)
  rw [htw, hdw2]
  have hfp : (twoDig f).takeWhile isDigitC = twoDig f :=
    takeWhile_all isDigitC (twoDig f) (twoDig_spec f hf).1
  simp only [hfp]
  have hne : (natChars a).isEmpty = false := by
    cases hh : natChars a with
    | nil => exact absurd hh (natChars_ne_nil a)
    | cons c cs => rfl
  rw [hne]
  simp only [Bool.false_and, if_neg (by simp : ¬False)]
  rw [natChars_val, (twoDig_spec f hf).2]
  have hlen : (twoDig f).length = 2 := rfl
  rw [hlen]
  norm_num

/-! ### Scanning lemmas for the canonical re-serialization -/

/-- Digits, the dot and the space survive lower-casing. -/
theorem lcChar_keep (c : Char) (h : isDigitC c = true ∨ c = '.' ∨ c = ' ') :
    lcChar c = c := by
  rw [lcChar]
  rcases h with h | h | h
  · rw [digit_not_upper c h]; simp
  · subst h; decide
  · subst h; decide

/-- A digit, dot or space never equals a lower-case letter. -/
theorem ne_of_lower (c : Char) (h : isDigitC c = true ∨ c = '.' ∨ c = ' ')
    (p : Char) (hp : isLowerC p = true) : c ≠ p := by
  intro e
  subst e
  rcases h with h | h | h
  · rw [isDigitC, Bool.and_eq_true, decide_eq_true_iff, decide_eq_true_iff] at h
    rw [isLowerC, Bool.and_eq_true, decide_eq_true_iff, decide_eq_true_iff] at hp
    omega
  · rw [h] at hp; exact absurd hp (by decide)
  · rw [h] at hp; exact absurd hp (by decide)

/-- A digit, dot or space never equals an upper-case letter. -/
theorem ne_of_upper (c : Char) (h : isDigitC c = true ∨ c = '.' ∨ c = ' ')
    (p : Char) (hp : isUpperC p = true) : c ≠ p := by
  intro e
  subst e
  rcases h with h | h | h
  · rw [isDigitC, Bool.and_eq_true, decide_eq_true_iff, decide_eq_true_iff] at h
    rw [isUpperC, Bool.and_eq_true, decide_eq_true_iff, decide_eq_true_iff] at hp
    omega
  · rw [h] at hp; exact absurd hp (by decide)
  · rw [h] at hp; exact absurd hp (by decide)

/-- A case-insensitive match fails on a head mismatch. -/
theorem ciStarts_head_false (p : Char) (ps : List Char) (c : Char)
    (cs : List Char) (h : lcChar c ≠ lcChar p) :
    ciStarts (p :: ps) (c :: cs) = false := by
  rw [ciStarts]
  simp [h]

/-- Mismatch against the lower-casing of a pattern head. -/
theorem ne_lcChar_of_lower (c : Char)
    (h : isDigitC c = true ∨ c = '.' ∨ c = ' ') (p : Char)
    (hp : isLowerC (lcChar p) = true) : lcChar c ≠ lcChar p := by
  rw [lcChar_keep c h]
  exact ne_of_lower c h (lcChar p) hp

/-- No single currency code matches (case-insensitively) at a digit, dot or
space. -/
theorem ciStarts_code_false (cd : String) (hcd : cd ∈ codes7) (c : Char)
    (cs : List Char) (h : isDigitC c = true ∨ c = '.' ∨ c = ' ') :
    ciStarts cd.data (c :: cs) = false := by
  fin_cases hcd
  · exact ciStarts_head_false 'U' _ c cs (ne_lcChar_of_lower c h 'U' (by decide))
  · exact ciStarts_head_false 'E' _ c cs (ne_lcChar_of_lower c h 'E' (by decide))
  · exact ciStarts_head_false 'G' _ c cs (ne_lcChar_of_lower c h 'G' (by decide))
  · exact ciStarts_head_false 'J' _ c cs (ne_lcChar_of_lower c h 'J' (by decide))
  · exact ciStarts_head_false 'I' _ c cs (ne_lcChar_of_lower c h 'I' (by decide))
  · exact ciStarts_head_false 'C' _ c cs (ne_lcChar_of_lower c h 'C' (by decide))
  · exact ciStarts_head_false 'A' _ c cs (ne_lcChar_of_lower c h 'A' (by decide))

/-- No currency code matches (case-insensitively) at a digit, dot or space. -/
theorem anyCode_head_false (c : Char) (cs : List Char)
    (h : isDigitC c = true ∨ c = '.' ∨ c = ' ') :
    codes7.any (fun cd => ciStarts cd.data (c :: cs)) = false := by
  rw [List.any_eq_false]
  intro cd hcd
  rw [Bool.not_eq_true]
  exact ciStarts_code_false cd hcd c cs h

/-- The regex alternation fails at a digit, dot or space position. -/
theorem tryCode_none (prev : Option Char) (c : Char) (cs : List Char)
    (h : isDigitC c = true ∨ c = '.' ∨ c = ' ') :
    tryCode prev (c :: cs) = none := by
  rw [tryCode, anyCode_head_false c cs h]
  simp

/-- The scan skips a prefix of digits, dots and spaces. -/
theorem findCode_skip_run :
    ∀ (l : List Char) (prev : Option Char) (rest : List Char),
      (∀ c ∈ l, isDigitC c = true ∨ c = '.' ∨ c = ' ') →
      findCode prev (l ++ rest)
        = findCode (l.foldl (fun _ c => some c) prev) rest := by
  intro l
  induction l with
  | nil => intro prev rest _; rfl
  | cons c cs ih =>
    intro prev rest hl
    rw [List.cons_append, findCode, tryCode_none prev c _ (hl c (by simp))]
    exact ih (some c) rest (fun d hd => hl d (by simp [hd]))

/-- The scan steps over a space, whatever preceded it. -/
theorem findCode_space (prev : Option Char) (C : List Char) :
    findCode prev (' ' :: C) = findCode (some ' ') C := by
  rw [findCode, tryCode_none prev ' ' C (Or.inr (Or.inr rfl))]

/-- A case-sensitive match fails on a head mismatch. -/
theorem startsWithL_head_false (p : Char) (ps : List Char) (c : Char)
    (cs : List Char) (h : c ≠ p) : startsWithL (p :: ps) (c :: cs) = false := by
  rw [startsWithL]
  simp [h]

/-- No currency code occurs (case-sensitively) at a digit, dot or space. -/
theorem startsWithL_code_false (cd : String) (hcd : cd ∈ codes7) (c : Char)
    (cs : List Char) (h : isDigitC c = true ∨ c = '.' ∨ c = ' ') :
    startsWithL cd.data (c :: cs) = false := by
  fin_cases hcd
  · exact startsWithL_head_false 'U' _ c cs (ne_of_upper c h 'U' (by decide))
  · exact startsWithL_head_false 'E' _ c cs (ne_of_upper c h 'E' (by decide))
  · exact startsWithL_head_false 'G' _ c cs (ne_of_upper c h 'G' (by decide))
  · exact startsWithL_head_false 'J' _ c cs (ne_of_upper c h 'J' (by decide))
  · exact startsWithL_head_false 'I' _ c cs (ne_of_upper c h 'I' (by decide))
  · exact startsWithL_head_false 'C' _ c cs (ne_of_upper c h 'C' (by decide))
  · exact startsWithL_head_false 'A' _ c cs (ne_of_upper c h 'A' (by decide))

/-- The first-occurrence replace skips a prefix of digits, dots and spaces
when removing a currency code. -/
theorem replaceFirst_skip (code : String) (hc : code ∈ codes7) :
    ∀ (l rest : List Char),
      (∀ c ∈ l, isDigitC c = true ∨ c = '.' ∨ c = ' ') →
      replaceFirst code.data (l ++ rest) = l ++ replaceFirst code.data rest := by
  intro l
  induction l with
  | nil => intro rest _; rfl
  | cons c cs ih =>
    intro rest hl
    rw [List.cons_append, replaceFirst]
    have hd := hl c (by simp)
    have hsw : startsWithL code.data (c :: (cs ++ rest)) = false :=
      startsWithL_code_false code hc c _ hd
    rw [hsw]
    simp only [Bool.false_eq_true, if_false]
    rw [ih rest (fun d hd' => hl d (by simp [hd']))]
    rfl

/-- Trimming leaves a list alone when neither end is whitespace. -/
theorem jsTrim_eq_self (l : List Char)
    (h1 : ∀ c, l.head? = some c → isWS c = false)
    (h2 : ∀ c, l.getLast? = some c → isWS c = false) : jsTrim l = l := by
  rw [jsTrim]
  have hd : l.dropWhile isWS = l := by
    cases l with
    | nil => rfl
    | cons c cs =>
      rw [List.dropWhile_cons, h1 c rfl]
      simp
  rw [hd]
  have hrev : l.reverse.dropWhile isWS = l.reverse := by
    cases hr : l.reverse with
    | nil => rfl
    | cons c cs =>
      rw [List.dropWhile_cons]
      have hlast : l.getLast? = some c := by
        rw [← List.head?_reverse, hr]
        rfl
      rw [h2 c hlast]
      simp
  rw [hrev, List.reverse_reverse]

/-- Trimming removes exactly one trailing space from a list with non-space
ends. -/
theorem jsTrim_trailing_space (l : List Char) (hne : l ≠ [])
    (h1 : ∀ c, l.head? = some c → isWS c = false)
    (h2 : ∀ c, l.getLast? = some c → isWS c = false) :
    jsTrim (l ++ [' ']) = l := by
  rw [jsTrim]
  have hd : (l ++ [' ']).dropWhile isWS = l ++ [' '] := by
    cases l with
    | nil => exact absurd rfl hne
    | cons c cs =>
      rw [List.cons_append, List.dropWhile_cons, h1 c rfl]
      simp
  rw [hd, List.reverse_append]
  show ((' ' :: l.reverse).dropWhile isWS).reverse = l
  rw [List.dropWhile_cons]
  rw [show isWS ' ' = true from rfl]
  simp only [if_true]
  have hrev : l.reverse.dropWhile isWS = l.reverse := by
    cases hr : l.reverse with
    | nil => rfl
    | cons c cs =>
      rw [List.dropWhile_cons]
      have hlast : l.getLast? = some c := by
        rw [← List.head?_reverse, hr]
        rfl
      rw [h2 c hlast]
      simp
  rw [hrev, List.reverse_reverse]

/-- `firstClassRun` of a non-empty all-class list is the whole list. -/
theorem firstClassRun_all (l : List Char) (hne : l ≠ [])
    (hall : ∀ c ∈ l, isNumClass c = true) : firstClassRun l = some l := by
  cases l with
  | nil => exact absurd rfl hne
  | cons c cs =>
    rw [firstClassRun]
    have hc : isNumClass c = true := hall c (by simp)
    rw [List.dropWhile_cons, hc]
    simp only [Bool.not_true, Bool.false_eq_true, if_false]
    rw [takeWhile_all isNumClass (c :: cs) hall]

/-- The characters of the canonical decimal rendering are digits or the dot. -/
theorem canonical_chars (a f : Nat) (hf : f < 100) (c : Char)
    (hc : c ∈ natChars a ++ '.' :: twoDig f) :
    isDigitC c = true ∨ c = '.' := by
  rcases List.mem_append.mp hc with h' | h'
  · exact Or.inl (natChars_digits a c h')
  · rcases List.mem_cons.mp h' with rfl | h''
    · exact Or.inr rfl
    · exact Or.inl ((twoDig_spec f hf).1 c h'')

/-- The canonical decimal rendering is non-empty with a digit head. -/
theorem canonical_head (a f : Nat) :
    ∃ c0 cs, natChars a ++ '.' :: twoDig f = c0 :: cs ∧ isDigitC c0 = true := by
  cases hh : natChars a with
  | nil => exact absurd hh (natChars_ne_nil a)
  | cons x xs =>
    refine ⟨x, xs ++ '.' :: twoDig f, by rw [List.cons_append], ?_⟩
    exact natChars_digits a x (by rw [hh]; simp)

/-- The canonical decimal rendering ends with a digit. -/
theorem canonical_last (a f : Nat) (_hf : f < 100) :
    ∃ d, (natChars a ++ '.' :: twoDig f).getLast? = some d ∧ isDigitC d = true := by
  refine ⟨Char.ofNat (48 + f % 10), ?_, digitChar_isDigit _ (Nat.mod_lt _ (by omega))⟩
  rw [List.getLast?_append]
  rw [show ('.' :: twoDig f).getLast? = some (Char.ofNat (48 + f % 10)) from rfl]
  rfl

/-- The numeric-part cleanup of `parsePriceString` on the canonical
rendering: the whole string is the class run, trimming and whitespace
removal leave it alone, no comma is present so the separator step is the
identity, and the parse returns the exact value. -/
theorem parseCharsPrice_canonical (a f : Nat) (hf : f < 100) :
    parseCharsPrice (natChars a ++ '.' :: twoDig f)
      = some (mkRat (a * 100 + f) 100) := by
  obtain ⟨c0, cs0, hP, hc0⟩ := canonical_head a f
  obtain ⟨d, hd, hdd⟩ := canonical_last a f hf
  have hne : natChars a ++ '.' :: twoDig f ≠ [] := by rw [hP]; simp
  have hall : ∀ c ∈ natChars a ++ '.' :: twoDig f, isNumClass c = true := by
    intro c hcm
    rcases canonical_chars a f hf c hcm with h' | h'
    · rw [isNumClass, h']; rfl
    · rw [h']; rfl
  rw [parseCharsPrice, firstClassRun_all _ hne hall]
  dsimp only
  have htrim : jsTrim (natChars a ++ '.' :: twoDig f)
      = natChars a ++ '.' :: twoDig f := by
    refine jsTrim_eq_self _ ?_ ?_
    · intro ch hch
      rw [hP] at hch
      rw [List.head?_cons] at hch
      cases hch
      exact digit_not_ws c0 hc0
    · intro ch hch
      rw [hd] at hch
      cases hch
      exact digit_not_ws d hdd
  rw [htrim]
  have hfilter : (natChars a ++ '.' :: twoDig f).filter (fun c => !isWS c)
      = natChars a ++ '.' :: twoDig f := by
    rw [List.filter_eq_self]
    intro ch hch
    rcases canonical_chars a f hf ch hch with h' | h'
    · rw [digit_not_ws ch h']; rfl
    · rw [h']; rfl
  rw [hfilter]
  have hnoc : ((natChars a ++ '.' :: twoDig f).contains ',') = false := by
    have hnm : (',' : Char) ∉ natChars a ++ '.' :: twoDig f := by
      intro hm
      rcases canonical_chars a f hf ',' hm with h' | h'
      · exact absurd h' (by decide)
      · exact absurd h' (by decide)
    simpa using hnm
  have hclean : cleanSeparators (natChars a ++ '.' :: twoDig f)
      = natChars a ++ '.' :: twoDig f := by
    rw [cleanSeparators, hnoc]
    simp
  rw [hclean]
  exact jsParseFloat_canonical a f hf

/-- `toFixed2` renders `mkRat N 100` as the canonical `digits.dd` string. -/
theorem toFixed2_mkRat (N : Nat) :
    toFixed2 (mkRat N 100)
      = String.mk (natChars (N / 100) ++ '.' :: twoDig (N % 100)) := by
  have hcents : (200 * (mkRat N 100).num + ((mkRat N 100).den : Int)).toNat
      / (2 * (mkRat N 100).den) = N := by
    set q : ℚ := mkRat N 100 with hqdef
    have hq : q = (N : ℚ) / 100 := by
      rw [hqdef, Rat.mkRat_eq_div]
      norm_num
    have hden0 : (q.den : ℚ) ≠ 0 := by
      exact_mod_cast q.den_nz
    have hnum : q.num * 100 = (N : Int) * q.den := by
      have h1 : ((q.num : ℚ) / (q.den : ℚ)) = (N : ℚ) / 100 := by
        rw [Rat.num_div_den]; exact hq
      rw [div_eq_div_iff hden0 (by norm_num : (100 : ℚ) ≠ 0)] at h1
      exact_mod_cast h1
    have hint : 200 * q.num + (q.den : Int) = (((2 * N + 1) * q.den : Nat) : Int) := by
      push_cast
      linarith [hnum]
    rw [hint, Int.toNat_natCast]
    have hdpos : 0 < q.den := Nat.pos_of_ne_zero q.den_nz
    rw [Nat.mul_comm 2 q.den]
    rw [Nat.mul_comm (2 * N + 1) q.den]
    rw [Nat.mul_div_mul_left _ _ hdpos]
    omega
  rw [toFixed2]
  rw [hcents]

/-- `String` append concatenates the data. -/
theorem str_data_append (s t : String) : (s ++ t).data = s.data ++ t.data := by
  cases s with
  | mk d1 => cases t with
    | mk d2 => rfl

/-- The last character of a list followed by a space and a currency code is
the code's last letter, which is not whitespace. -/
theorem append_last_code (l : List Char) (c : String) (hc : c ∈ codes7) :
    ∀ ch, (l ++ ' ' :: c.data).getLast? = some ch → isWS ch = false := by
  fin_cases hc
  · intro ch h
    rw [List.getLast?_append,
      show (' ' :: ("USD" : String).data).getLast? = some 'D' from rfl] at h
    rw [show (some 'D').or l.getLast? = some 'D' from rfl] at h
    cases h; decide
  · intro ch h
    rw [List.getLast?_append,
      show (' ' :: ("EUR" : String).data).getLast? = some 'R' from rfl] at h
    rw [show (some 'R').or l.getLast? = some 'R' from rfl] at h
    cases h; decide
  · intro ch h
    rw [List.getLast?_append,
      show (' ' :: ("GBP" : String).data).getLast? = some 'P' from rfl] at h
    rw [show (some 'P').or l.getLast? = some 'P' from rfl] at h
    cases h; decide
  · intro ch h
    rw [List.getLast?_append,
      show (' ' :: ("JPY" : String).data).getLast? = some 'Y' from rfl] at h
    rw [show (some 'Y').or l.getLast? = some 'Y' from rfl] at h
    cases h; decide
  · intro ch h
    rw [List.getLast?_append,
      show (' ' :: ("INR" : String).data).getLast? = some 'R' from rfl] at h
    rw [show (some 'R').or l.getLast? = some 'R' from rfl] at h
    cases h; decide
  · intro ch h
    rw [List.getLast?_append,
      show (' ' :: ("CAD" : String).data).getLast? = some 'D' from rfl] at h
    rw [show (some 'D').or l.getLast? = some 'D' from rfl] at h
    cases h; decide
  · intro ch h
    rw [List.getLast?_append,
      show (' ' :: ("AUD" : String).data).getLast? = some 'D' from rfl] at h
    rw [show (some 'D').or l.getLast? = some 'D' from rfl] at h
    cases h; decide

/-- The code regex finds exactly the appended code after a digits-and-dot
prefix and a space. -/
theorem findCode_canonical (l : List Char)
    (hl : ∀ ch ∈ l, isDigitC ch = true ∨ ch = '.') (c : String)
    (hc : c ∈ codes7) : findCode none (l ++ ' ' :: c.data) = some c.data := by
  have hl' : ∀ ch ∈ l, isDigitC ch = true ∨ ch = '.' ∨ ch = ' ' :=
    fun ch h => (hl ch h).imp id Or.inl
  rw [findCode_skip_run l none (' ' :: c.data) hl', findCode_space]
  fin_cases hc <;> decide

/-- Upper-casing a recognized code's matched text reproduces the code. -/
theorem uc_code (c : String) (hc : c ∈ codes7) :
    String.mk (c.data.map ucChar) = c := by
  fin_cases hc <;> decide

/-- Removing a code's first occurrence from itself leaves nothing. -/
theorem replaceFirst_self (c : String) (hc : c ∈ codes7) :
    replaceFirst c.data c.data = [] := by
  fin_cases hc <;> decide

/-- Removing the appended code from the canonical string leaves the prefix
and the space. -/
theorem replaceFirst_canonical (l : List Char)
    (hl : ∀ ch ∈ l, isDigitC ch = true ∨ ch = '.') (c : String)
    (hc : c ∈ codes7) :
    replaceFirst c.data (l ++ ' ' :: c.data) = l ++ [' '] := by
  have h1 : l ++ ' ' :: c.data = (l ++ [' ']) ++ c.data := by
    rw [List.append_assoc]
    rfl
  have hall : ∀ ch ∈ l ++ [' '], isDigitC ch = true ∨ ch = '.' ∨ ch = ' ' := by
    intro ch h
    rcases List.mem_append.mp h with h' | h'
    · exact (hl ch h').imp id Or.inl
    · rcases List.mem_cons.mp h' with rfl | h''
      · exact Or.inr (Or.inr rfl)
      · cases h''
  rw [h1, replaceFirst_skip c hc (l ++ [' ']) c.data hall,
    replaceFirst_self c hc, List.append_nil]

/-- C9, counterexample: `parseFloat` preserves full precision but
`toFixed(2)` rounds, so a result with more than two decimals (here
`"1,234"`, comma treated as a decimal separator, price 1.234) does not
round-trip: its canonical re-serialization `"1.23 USD"` re-normalizes to
1.23 ≠ 1.234. -/
theorem c9_counterexample :
    parsePriceString "1,234" = ⟨some (mkRat 1234 1000), some "USD"⟩
    ∧ toFixed2 (mkRat 1234 1000) = "1.23"
    ∧ parsePriceString ("1.23" ++ " " ++ "USD")
        = ⟨some (mkRat 123 100), some "USD"⟩
    ∧ (mkRat 123 100 : ℚ) ≠ mkRat 1234 1000 := by
  refine ⟨by decide, by decide, by decide, by decide⟩

/-- C9, amended: idempotence holds for every successful result whose price
has at most two decimal places — for every `N` and recognized currency code
`c`, re-running the normalizer on `toFixed2 (N/100) ++ " " ++ c` yields
exactly `price N/100, currency c`; prices with more decimals are rounded by
`toFixed(2)` and do not round-trip. -/
theorem c9_idempotence_two_decimals (N : Nat) (c : String) (hc : c ∈ codes7) :
    parsePriceString (toFixed2 (mkRat N 100) ++ " " ++ c)
      = ⟨some (mkRat N 100), some c⟩ := by
  have hf : N % 100 < 100 := Nat.mod_lt _ (by omega)
  obtain ⟨c0, cs0, hP, hc0⟩ := canonical_head (N / 100) (N % 100)
  obtain ⟨d, hdl, hdd⟩ := canonical_last (N / 100) (N % 100) hf
  have hdata : (toFixed2 (mkRat N 100) ++ " " ++ c).data
      = (natChars (N / 100) ++ '.' :: twoDig (N % 100)) ++ ' ' :: c.data := by
    rw [str_data_append, str_data_append, toFixed2_mkRat]
    rw [List.append_assoc]
    rfl
  rw [parsePriceString, hdata]
  simp only [parsePriceChars]
  have htrim : jsTrim ((natChars (N / 100) ++ '.' :: twoDig (N % 100))
        ++ ' ' :: c.data)
      = (natChars (N / 100) ++ '.' :: twoDig (N % 100)) ++ ' ' :: c.data := by
    refine jsTrim_eq_self _ ?_ (append_last_code _ c hc)
    intro ch hch
    rw [hP, List.cons_append, List.head?_cons] at hch
    cases hch
    exact digit_not_ws c0 hc0
  rw [htrim]
  rw [detectCurrency_code_eq _ c.data
    (findCode_canonical _ (fun ch h =>
      canonical_chars (N / 100) (N % 100) hf ch h) c hc)]
  rw [replaceFirst_canonical _ (fun ch h =>
    canonical_chars (N / 100) (N % 100) hf ch h) c hc]
  have hne : natChars (N / 100) ++ '.' :: twoDig (N % 100) ≠ [] := by
    rw [hP]; simp
  rw [jsTrim_trailing_space _ hne
    (fun ch hch => by
      rw [hP, List.head?_cons] at hch
      cases hch
      exact digit_not_ws c0 hc0)
    (fun ch hch => by
      rw [hdl] at hch
      cases hch
      exact digit_not_ws d hdd)]
  rw [parseCharsPrice_canonical _ _ hf]
  have hNv : ((N / 100 : Nat) : Int) * 100 + ((N % 100 : Nat) : Int) = (N : Int) := by
    omega
  rw [hNv]
  dsimp only
  rw [Option.getD_some, uc_code c hc]

/-- C9, witness for the amended claim at `N = 12345`, currency `"USD"`:
`toFixed2` gives `"123.45"`, and re-normalizing `"123.45 USD"` returns
exactly `123.45` and `"USD"`. -/
theorem c9_witness :
    parsePriceString (toFixed2 (mkRat 12345 100) ++ " " ++ "USD")
      = ⟨some (mkRat 12345 100), some "USD"⟩ :=
  c9_idempotence_two_decimals 12345 "USD" (by decide)

/-- C7, counterexample: with a date filter, the `WHERE` on the joined
columns drops hotels without a matching observation entirely, so the output
can be shorter than the input hotel list — here one hotel, no observations,
a filter given: the output is empty. -/
theorem c7_counterexample :
    (comparePrices [⟨"a", "1", "A"⟩] [] (some ("2025-01-01", "2025-01-02"))).length
      ≠ ([⟨"a", "1", "A"⟩] : List Hotel).length := by decide

/-- C7, amended: the comparator output is always pairwise ordered (null
latest prices only ever followed by nulls, and non-null latest prices
non-decreasing); *without* a date filter the output length equals the hotel
count (for distinct hotel ids) and an entry's latest price is null exactly
when its hotel has no observation; *with* a date filter, hotels without a
matching observation are dropped (the LEFT JOIN's NULL rows fail the WHERE
clause), so the length is the number of hotels having a matching
observation. -/
theorem c7_comparator_order :
    (∀ (hotels : List Hotel) (prices : List PriceRow)
        (f : Option (String × String)),
        (comparePrices hotels prices f).Pairwise entryOrdered)
    ∧ (∀ (hotels : List Hotel) (prices : List PriceRow),
        (hotels.map (fun h => h.id)).Nodup →
        (comparePrices hotels prices none).length = hotels.length)
    ∧ (∀ (hotels : List Hotel) (prices : List PriceRow) (e : CompareEntry),
        e ∈ comparePrices hotels prices none →
        (e.latestPrice = none ↔ ∀ p ∈ prices, p.hotelId ≠ e.hotelId))
    ∧ (∀ (hotels : List Hotel) (prices : List PriceRow) (ci co : String),
        (hotels.map (fun h => h.id)).Nodup →
        (comparePrices hotels prices (some (ci, co))).length
          = (hotels.filter (hasObsFor prices (ci, co))).length) := by
  refine ⟨?_, ?_, ?_, ?_⟩
  · intro hotels prices f
    exact pairwise_jsSortBy entryLe entryOrdered_trans entryLe_true_ordered
      entryLe_false_ordered _
  · intro hotels prices hnd
    have h := comparePrices_length_eq hotels prices none _ hnd
      (joinRows_none_ids hotels prices)
    simpa using h
  · intro hotels prices e he
    obtain ⟨h, _, r, hr, rfl⟩ := comparePrices_mem hotels prices none e he
    have hhot := joinRowsOf_hotel prices none h r hr
    rw [joinRowsOf] at hr
    by_cases hm : (prices.filter (fun p => p.hotelId = h.hotelId)).isEmpty
    · rw [if_pos hm] at hr
      rcases List.mem_cons.mp hr with rfl | h'
      · rw [List.isEmpty_iff, List.filter_eq_nil_iff] at hm
        simp only [toEntry, Option.map_none']
        constructor
        · intro _ p hp
          intro heq
          exact hm p hp (by simp [heq])
        · intro _; trivial
      · cases h'
    · rw [if_neg hm] at hr
      obtain ⟨p, hp, rfl⟩ := List.mem_map.mp hr
      have hpm := List.mem_filter.mp hp
      simp only [toEntry, Option.map_some']
      constructor
      · intro hnone; cases hnone
      · intro hall
        exact absurd (of_decide_eq_true hpm.2) (hall p hpm.1)
  · intro hotels prices ci co hnd
    have h := comparePrices_length_eq hotels prices (some (ci, co)) _
      (((List.filter_sublist hotels).map (fun h => h.id)).nodup hnd)
      (joinRows_filter_ids hotels prices (ci, co))
    simpa using h

/-- C7, witness for the amended claim at concrete inputs: two hotels with
distinct ids, one observation, no filter gives two entries; with a filter
matching nothing, the single-hotel instance gives zero entries; the
no-observation entry of the singleton run has a null latest price. -/
theorem c7_witness :
    (comparePrices [⟨"a", "1", "A"⟩, ⟨"b", "2", "B"⟩]
        [⟨"p1", "2", 50, "USD", "ci", "co", 5⟩] none).length = 2
    ∧ (comparePrices [⟨"a", "1", "A"⟩] [] (some ("2025-01-01", "2025-01-02"))).length
        = 0
    ∧ ((⟨"a", "1", "A", none, none, none⟩ : CompareEntry).latestPrice = none
        ↔ ∀ p ∈ ([] : List PriceRow), p.hotelId
            ≠ (⟨"a", "1", "A", none, none, none⟩ : CompareEntry).hotelId) := by
  refine ⟨?_, ?_, ?_⟩
  · have h := c7_comparator_order.2.1 [⟨"a", "1", "A"⟩, ⟨"b", "2", "B"⟩]
      [⟨"p1", "2", 50, "USD", "ci", "co", 5⟩] (by decide)
    simpa using h
  · have h := c7_comparator_order.2.2.2 [⟨"a", "1", "A"⟩] [] "2025-01-01"
      "2025-01-02" (by decide)
    rw [h]
    decide
  · exact c7_comparator_order.2.2.1 [⟨"a", "1", "A"⟩] []
      ⟨"a", "1", "A", none, none, none⟩ (by decide)

/-- C1: on a numeric remainder containing both `.` and `,`, the code's
separator normalization agrees with the spec-side reading
(`specSepNormalize`: the rightmost of the two marks is the decimal separator,
the other is a thousands separator and is removed); and the two example
inputs normalize as the spec states. -/
theorem c1_separator_semantics :
    (∀ l : List Char, '.' ∈ l → ',' ∈ l → cleanSeparators l = specSepNormalize l)
    ∧ parsePriceString "$1,234.56" = ⟨some (mkRat 123456 100), some "USD"⟩
    ∧ parsePriceString "1.234,56 EUR" = ⟨some (mkRat 123456 100), some "EUR"⟩ := by
  refine ⟨?_, by decide, by decide⟩
  intro l h1 h2
  have hcd : l.contains '.' = true := by
    simpa using h1
  have hcc : l.contains ',' = true := by
    simpa using h2
  rw [cleanSeparators, specSepNormalize]
  rw [hcd, hcc]
  by_cases hcmp : lastIndexOf '.' l > lastIndexOf ',' l
  · rw [if_pos rfl, if_pos hcmp]
    rw [(getLast_sep_dot_iff l h1 h2).mpr hcmp]
    have hid : (fun c : Char => if c = '.' then '.' else c) = id := by
      funext c
      by_cases h : c = '.' <;> simp [h]
    simp [hid]
  · rw [if_pos rfl, if_neg hcmp]
    have hfx : (',' : Char) ∈ l.filter isSepC := by
      simp [List.mem_filter, h2, isSepC]
    have hne : l.filter isSepC ≠ [] := List.ne_nil_of_mem hfx
    obtain ⟨z, hz, hm⟩ := getLast?_some_of_ne_nil _ hne
    have hzc : z = ',' := by
      have hzm := List.mem_filter.mp hm
      have hsep : z = '.' ∨ z = ',' := by
        have := hzm.2
        simp [isSepC] at this
        exact this
      rcases hsep with h' | h'
      · exact absurd ((getLast_sep_dot_iff l h1 h2).mp (h' ▸ hz)) hcmp
      · exact h'
    rw [hz, hzc]
    simp

/-- C1, witness for the refinement part at the concrete remainder
`"12.3,4"`. -/
theorem c1_witness :
    cleanSeparators "12.3,4".data = specSepNormalize "12.3,4".data :=
  c1_separator_semantics.1 "12.3,4".data (by decide) (by decide)

/-- C2, counterexample: the claim says an input containing both `$` and
`EUR` yields currency USD (symbol precedence); on the code, the currency-code
check runs after the symbol check and overwrites it, so `"$100 EUR"` yields
EUR, not USD. -/
theorem c2_counterexample :
    parsePriceString "$100 EUR" = ⟨some 100, some "EUR"⟩
      ∧ ("EUR" : String) ≠ "USD" := by
  constructor
  · decide
  · decide

/-- C2, amended: whenever the 3-letter-code regex matches the trimmed input,
the reported currency is the upper-cased matched code — the code check is
evaluated second and overwrites any symbol-table match, so a code takes
precedence over a symbol, not the other way around. -/
theorem c2_code_overrides_symbol (s : String) (t : List Char)
    (h : findCode none (jsTrim s.data) = some t) :
    (parsePriceString s).currency = some (String.mk (t.map ucChar)) := by
  simp only [parsePriceString, parsePriceChars]
  rw [detectCurrency_code_eq _ _ h]
  cases hp : parseCharsPrice (jsTrim (replaceFirst t (jsTrim s.data))) <;> simp [hp]

/-- C2, witness for the amended claim at the concrete input `"$100 EUR"`. -/
theorem c2_witness :
    (parsePriceString "$100 EUR").currency = some (String.mk (['E', 'U', 'R'].map ucChar)) :=
  c2_code_overrides_symbol "$100 EUR" ['E', 'U', 'R'] (by decide)

/-- C3, counterexample: the claim says the normalizer never returns a numeric
price for an unparseable input; the first-version normalizer `extractPrice`
returns the numeric result `price 0, currency "USD"` for `"abc"` (and for
`""`) instead of a failure. -/
theorem c3_counterexample : extractPrice "abc" = (0, "USD") := by decide

/-- C3, amended: `parsePriceString` returns a null price (the
`NoNumericValue` outcome) exactly when its numeric remainder fails to parse,
and in particular on `""` and `"abc"`; the first-version `extractPrice`,
however, returns `price 0, currency "USD"` for such inputs instead of a
failure. -/
theorem c3_no_numeric_value :
    (∀ s : String,
      parseCharsPrice (detectCurrency (jsTrim s.data)).2 = none →
        (parsePriceString s).price = none)
    ∧ parsePriceString "" = ⟨none, none⟩
    ∧ parsePriceString "abc" = ⟨none, none⟩
    ∧ extractPrice "" = (0, "USD")
    ∧ extractPrice "abc" = (0, "USD") := by
  refine ⟨fun s h => (parsePriceString_price_none s).mpr h, by decide, by decide,
    by decide, by decide⟩

/-- C3, witness for the amended claim at the concrete input `"abc"`. -/
theorem c3_witness : (parsePriceString "abc").price = none :=
  c3_no_numeric_value.1 "abc" (by decide)

/-- C4, counterexample: the claim says a candidate normalizing to price 0 is
never accepted; the selector loop of `extractPriceInfo` only checks
`price !== null && currency !== null`, so the candidate text `"$0"` is
accepted with price 0. -/
theorem c4_counterexample :
    extractPriceInfo ["$0"] [] = (some 0, some "USD") ∧ ¬(0 : ℚ) > 0 := by
  constructor
  · decide
  · decide

/-- C4, amended: the selector-based extraction accepts the first candidate
whose normalization yields a non-null price (zero included — there is no
positivity check on this path), while the free-text fallback
`extractPriceFromText` only accepts matches with price strictly positive. -/
theorem c4_acceptance_criteria :
    (∀ (ms : List String) (r : PriceParse),
        extractPriceFromText ms = some r → ∃ p, r.price = some p ∧ 0 < p)
    ∧ (∀ (pre rest ms : List String) (t : String) (p : ℚ) (c : String),
        (∀ s ∈ pre, (parsePriceString (strTrim s)).price = none) →
        parsePriceString (strTrim t) = ⟨some p, some c⟩ →
        extractPriceInfo (pre ++ t :: rest) ms = (some p, some c)) := by
  constructor
  · intro ms
    induction ms with
    | nil => intro r h; simp [extractPriceFromText, eftLoop] at h
    | cons m rest ih =>
      intro r h
      rw [extractPriceFromText, eftLoop] at h
      cases hp : (parsePriceString m).price with
      | none => rw [hp] at h; exact ih r h
      | some p =>
        rw [hp] at h
        dsimp only at h
        by_cases hpos : 0 < p
        · rw [if_pos hpos] at h
          cases h
          exact ⟨p, hp, hpos⟩
        · rw [if_neg hpos] at h; exact ih r h
  · intro pre
    induction pre with
    | nil =>
      intro rest ms t p c _ ht
      simp [extractPriceInfo, selLoop, ht]
    | cons s pre ih =>
      intro rest ms t p c hpre ht
      have hs : (parsePriceString (strTrim s)).price = none := hpre s (by simp)
      have ih' := ih rest ms t p c (fun x hx => hpre x (by simp [hx])) ht
      rw [extractPriceInfo, List.cons_append, selLoop, hs]
      rw [extractPriceInfo] at ih'
      cases hc : (parsePriceString (strTrim s)).currency <;> exact ih'

/-- C4, witness for the amended claim: with the first candidate failing to
normalize and the second normalizing to price 0, the selector loop accepts
price 0; the fallback accepts only positive prices. -/
theorem c4_witness :
    extractPriceInfo (["abc"] ++ "$0" :: []) [] = (some 0, some "USD")
    ∧ ∃ p, (⟨some 5, some "USD"⟩ : PriceParse).price = some p ∧ 0 < p := by
  constructor
  · exact c4_acceptance_criteria.2 ["abc"] [] [] "$0" 0 "USD"
      (by intro s hs; simp at hs; subst hs; decide) (by decide)
  · exact c4_acceptance_criteria.1 ["$5"] ⟨some 5, some "USD"⟩ (by decide)

/-- C8 (code bug): the spec's invariant says no Observation is ever persisted
when `checkIn >= checkOut`.  The batch path (`searchMultipleHotels`) does
validate this, but the single-hotel scrape route calls `searchHotelPrices`,
which performs no date validation at all, and persists its result: with
`checkIn = "2025-01-02" >= checkOut = "2025-01-01"` and a page containing a
price card `"$100"`, an observation is persisted for that inverted range. -/
theorem c8_scrape_persists_invalid_range :
    dateGe "2025-01-02" "2025-01-01" = true
    ∧ scrapeRoute "2025-01-02" "2025-01-01"
        (some ⟨"hotel_2490015", "M Hotel Al Dana Makkah by Millennium"⟩)
        (some ⟨some "2490015", "M Hotel", "$100", "4.5"⟩) 0
      = (200, [⟨"hotel_2490015", 100, "$", "2025-01-02", "2025-01-01"⟩])
    ∧ searchMultipleHotels [("M Hotel", Except.error "x")]
        "2025-01-02" "2025-01-01"
      = .error "Check-in date must be before check-out date" := by
  refine ⟨by decide, by decide, by decide⟩

/-- C10: `saveHotelPrice` catches any store-insert error and only logs a
warning, so it returns normally (the `ok` unit) for every observation and
every insert outcome; the warning is logged exactly when the insert failed. -/
theorem c10_save_swallows_error :
    ∀ (r : SavedPrice) (ins : Except String Unit),
      (saveHotelPrice r ins).1 = Except.ok ()
      ∧ ((saveHotelPrice r ins).2 = none ↔ ins = .ok ()) := by
  intro r ins
  cases ins with
  | ok u => cases u; simp [saveHotelPrice]
  | error e => simp [saveHotelPrice]

/-- C6, counterexample: the claim says a batch with a partial failure returns
the successes *plus an enumerated failure list*; `searchHotels` hands the
failure list to the logger only and returns just the successes — the value
returned for a batch with one success and one failure is the one-element
success list, with no failure entry in it. -/
theorem c6_counterexample :
    searchHotels
        [("h1", .ok ⟨"h1", "Hotel One", 100, "USD", "2025-01-01", "2025-01-02"⟩),
         ("h2", .error "navigation timeout")]
      = ([⟨"h1", "Hotel One", 100, "USD", "2025-01-01", "2025-01-02"⟩],
         [("h2", "navigation timeout")])
    ∧ searchHotelsReturn
        [("h1", .ok ⟨"h1", "Hotel One", 100, "USD", "2025-01-01", "2025-01-02"⟩),
         ("h2", .error "navigation timeout")]
      = [⟨"h1", "Hotel One", 100, "USD", "2025-01-01", "2025-01-02"⟩] := by
  constructor
  · decide
  · decide

/-- C6, amended: one hotel's failure never aborts the batch — `searchHotels`
always returns, with exactly the successes (in order) as its return value
while the enumerated failures go only to the logging collaborator; likewise
`searchMultipleHotels` returns the collected successes whenever its guard
clauses pass, regardless of individual hotel failures. -/
theorem c6_batch_partial_failure :
    (∀ hs : List (String × Except String HotelSearchResult),
      searchHotels hs
        = (hs.filterMap (fun p => p.2.toOption),
           hs.filterMap (fun p =>
             match p.2 with
             | .error e => some (p.1, e)
             | .ok _ => none)))
    ∧ (∀ (outs : List (String × Except String HotelSearchResult)) (ci co : String),
        outs ≠ [] → isValidDateFormat ci = true → isValidDateFormat co = true →
        dateGe ci co = false →
        searchMultipleHotels outs ci co = .ok (smhLoop outs)) := by
  constructor
  · intro hs
    induction hs with
    | nil => rfl
    | cons p rest ih =>
      obtain ⟨hid, out⟩ := p
      cases out with
      | ok r =>
        simp only [searchHotels, searchHotelsLoop, List.filterMap_cons]
        rw [searchHotels] at ih
        simp [ih, Except.toOption]
      | error e =>
        simp only [searchHotels, searchHotelsLoop, List.filterMap_cons]
        rw [searchHotels] at ih
        simp [ih, Except.toOption]
  · intro outs ci co hne hci hco hlt
    unfold searchMultipleHotels
    rw [if_neg (by simpa [List.isEmpty_iff] using hne)]
    rw [hci, hco, hlt]
    simp

/-- Success case of the retry loop: if the invocations at offsets
`0, …, k-1` fail and the one at offset `k` succeeds, with `k` within the
remaining budget, the loop returns the success after exactly `k + 1`
invocations. -/
theorem retryLoop_ok {α : Type} (op : Nat → Except String α) :
    ∀ (k i rem : Nat) (last : Option String) (a : α), k < rem →
      (∀ j, j < k → ∃ e, op (i + j) = .error e) → op (i + k) = .ok a →
      retryLoop op i rem last = (.ok a, k + 1) := by
  intro k
  induction k with
  | zero =>
    intro i rem last a hk _ hok
    obtain ⟨r, rfl⟩ : ∃ r, rem = r + 1 := ⟨rem - 1, by omega⟩
    rw [retryLoop]
    rw [Nat.add_zero] at hok
    rw [hok]
  | succ k ih =>
    intro i rem last a hk hfail hok
    obtain ⟨r, rfl⟩ : ∃ r, rem = r + 1 := ⟨rem - 1, by omega⟩
    obtain ⟨e, he⟩ := hfail 0 (by omega)
    rw [Nat.add_zero] at he
    rw [retryLoop, he]
    dsimp only
    have ih' := ih (i + 1) r (some e) a (by omega)
      (fun j hj => by
        obtain ⟨e', he'⟩ := hfail (j + 1) (by omega)
        exact ⟨e', by rw [show i + 1 + j = i + (j + 1) by omega]; exact he'⟩)
      (by rw [show i + 1 + k = i + (k + 1) by omega]; exact hok)
    rw [ih']

/-- Failure case of the retry loop: if every invocation fails, the loop
makes exactly `rem` invocations and ends in an error. -/
theorem retryLoop_err {α : Type} (op : Nat → Except String α) :
    ∀ (rem i : Nat) (last : Option String), (∀ j, ∃ e, op j = .error e) →
      ∃ err, retryLoop op i rem last = (.error err, rem) := by
  intro rem
  induction rem with
  | zero => intro i last _; exact ⟨last, rfl⟩
  | succ r ih =>
    intro i last hfail
    obtain ⟨e, he⟩ := hfail i
    obtain ⟨err, hr⟩ := ih (i + 1) (some e) hfail
    rw [retryLoop, he]
    dsimp only
    rw [hr]
    exact ⟨err, rfl⟩

/-- C5: for both retry orchestrators — `retryOperation`, whose bound on
attempts is its `retryAttempts` parameter `n`, and `withRetry`, whose bound
on attempts is `maxRetries + 1` (the total its own log messages call the
attempt count) — an operation failing exactly `k` times with `k` below the
bound and then succeeding returns the success value after exactly `k + 1`
invocations, and an operation failing on every invocation ends in the thrown
error after exactly the bound's number of invocations. -/
theorem c5_retry_counts :
    (∀ (op : Nat → Except String Nat) (n k a : Nat), k < n →
        (∀ j, j < k → ∃ e, op j = .error e) → op k = .ok a →
        retryOperation n op = (.ok a, k + 1))
    ∧ (∀ (op : Nat → Except String Nat) (n : Nat), (∀ j, ∃ e, op j = .error e) →
        ∃ err, retryOperation n op = (.error err, n))
    ∧ (∀ (op : Nat → Except String Nat) (m k a : Nat), k < m + 1 →
        (∀ j, j < k → ∃ e, op j = .error e) → op k = .ok a →
        withRetry m op = (.ok a, k + 1))
    ∧ (∀ (op : Nat → Except String Nat) (m : Nat), (∀ j, ∃ e, op j = .error e) →
        ∃ err, withRetry m op = (.error err, m + 1)) := by
  refine ⟨fun op n k a hk hf hok => ?_, fun op n hf => ?_,
    fun op m k a hk hf hok => ?_, fun op m hf => ?_⟩
  · exact retryLoop_ok op k 0 n none a hk (by simpa using hf) (by simpa using hok)
  · exact retryLoop_err op n 0 none hf
  · exact retryLoop_ok op k 0 (m + 1) none a hk (by simpa using hf) (by simpa using hok)
  · exact retryLoop_err op (m + 1) 0 none hf

/-- Operation used by the C5 witness: fails twice, then succeeds with 7. -/
def opTwoFails : Nat → Except String Nat :=
  fun i => if i < 2 then .error "boom" else .ok 7

/-- C5, witness: the two-failures-then-success operation under a bound of 5
returns 7 after exactly 3 invocations, and an always-failing operation under
`withRetry 1` errors after exactly 2 invocations. -/
theorem c5_witness :
    retryOperation 5 opTwoFails = (.ok 7, 3)
    ∧ ∃ err, withRetry 1 (fun _ => (.error "x" : Except String Nat))
        = (.error err, 2) := by
  constructor
  · exact c5_retry_counts.1 opTwoFails 5 2 7 (by decide)
      (fun j hj => ⟨"boom", by unfold opTwoFails; rw [if_pos hj]⟩) (by decide)
  · exact c5_retry_counts.2.2.2 (fun _ => .error "x") 1 (fun j => ⟨"x", rfl⟩)

/-- C6, witness for the amended claim at a concrete batch with one success
and one failure (valid, ordered dates). -/
theorem c6_witness :
    searchHotels
        [("a", .ok ⟨"a", "A", 10, "USD", "ci", "co"⟩), ("b", .error "boom")]
      = ([⟨"a", "A", 10, "USD", "ci", "co"⟩], [("b", "boom")])
    ∧ searchMultipleHotels
        [("a", .ok ⟨"a", "A", 10, "USD", "2025-01-01", "2025-01-02"⟩),
         ("b", .error "boom")]
        "2025-01-01" "2025-01-02"
      = .ok [⟨"a", "A", 10, "USD", "2025-01-01", "2025-01-02"⟩] := by
  constructor
  · have h := c6_batch_partial_failure.1
      [("a", .ok ⟨"a", "A", 10, "USD", "ci", "co"⟩), ("b", .error "boom")]
    simpa using h
  · have h := c6_batch_partial_failure.2
      [("a", .ok ⟨"a", "A", 10, "USD", "2025-01-01", "2025-01-02"⟩),
       ("b", .error "boom")]
      "2025-01-01" "2025-01-02" (by decide) (by decide) (by decide) (by decide)
    simpa [smhLoop] using h
